import Mathlib

/-!
Shallow embedding of the "Who-Is-Spy" orchestration engine
(`src/core/models.py`, `src/core/session_manager.py`, `src/core/game_engine.py`).

Python dicts are modelled as insertion-ordered association lists with
replace-in-place update (`dictInsert`), matching CPython dict semantics.
`random.choice` is modelled as an abstract function `choose : List String → String`
together with the hypothesis that it picks a member of any nonempty list.
All agent (LLM) calls are modelled as abstract functions returning
`Option String`, where `none` stands for a raised exception.
-/

namespace WhoIsSpy

/-- Association-list lookup with decidable string equality (Python `d[k]` / `d.get(k)`). -/
def alookup (k : String) : List (String × α) → Option α
  | [] => none
  | (k', v) :: rest => if k' = k then some v else alookup k rest

/-- Python dict assignment `d[k] = v`: replaces in place if the key exists,
otherwise appends (insertion order preserved). -/
def dictInsert (k : String) (v : α) : List (String × α) → List (String × α)
  | [] => [(k, v)]
  | (k', v') :: rest =>
      if k' = k then (k, v) :: rest else (k', v') :: dictInsert k v rest

/-- Python `d[t] = d.get(t, 0) + 1`. -/
def bumpCount (acc : List (String × Nat)) (t : String) : List (String × Nat) :=
  dictInsert t ((alookup t acc).getD 0 + 1) acc

/-- The tally loop `for target in votes.values(): counts[target] = counts.get(target, 0) + 1`. -/
def countValues (ts : List String) : List (String × Nat) :=
  ts.foldl bumpCount []

/-- Python `sep.join(lines)`. -/
def joinSep (sep : String) : List String → String
  | [] => ""
  | [a] => a
  | a :: b :: rest => a ++ sep ++ joinSep sep (b :: rest)

/-- Python `max(l)` over the values of a `Nat` tally (total; equals the real
maximum on nonempty lists because every `Nat` is `≥ 0`). -/
def maxValues (l : List (String × Nat)) : Nat :=
  (l.map Prod.snd).foldl max 0

/-- `models.Role`. -/
inductive Role where
  | civilian
  | spy
deriving DecidableEq

/-- `models.GamePhase`. -/
inductive GamePhase where
  | waiting
  | init
  | description
  | voting
  | elimination
  | finished
deriving DecidableEq

/-- `models.PlayerSession` (fields relevant to the engine core; timestamps,
provider/model strings and the conversation context are carried elsewhere). -/
structure PlayerSession where
  name : String
  role : Option Role
  word : Option String
  is_alive : Bool
deriving DecidableEq

/-- `models.RoundRecord` (timestamps omitted). -/
structure RoundRecord where
  round_number : Nat
  phase : GamePhase
  descriptions : List (String × String)
  human_votes : List (String × String)
  human_vote_counts : List (String × Nat)
  votes : List (String × String)
  vote_counts : List (String × Nat)
  eliminated : Option String
  eliminated_role : Option Role
deriving DecidableEq

/-- A fresh `RoundRecord(round_number=n, phase=p)`. -/
def RoundRecord.new (n : Nat) (p : GamePhase) : RoundRecord :=
  ⟨n, p, [], [], [], [], [], none, none⟩

/-- `models.GameSession` (session id and timestamps omitted; the `players`
dict is an insertion-ordered list keyed by name). -/
structure GameSession where
  total_players : Nat
  spy_count : Nat
  civilian_word : String
  spy_word : String
  players : List PlayerSession
  phase : GamePhase
  current_round : Nat
  speaking_order : List String
  round_history : List RoundRecord
  winner : Option Role
deriving DecidableEq

/-- `GameSession.get_alive_players`. -/
def GameSession.get_alive_players (s : GameSession) : List PlayerSession :=
  s.players.filter (fun p => p.is_alive)

/-- `GameSession.get_alive_player_names`. -/
def GameSession.get_alive_player_names (s : GameSession) : List String :=
  s.get_alive_players.map PlayerSession.name

/-- `GameSession.get_spies` (alive spies). -/
def GameSession.get_spies (s : GameSession) : List PlayerSession :=
  s.players.filter (fun p => p.role = some Role.spy ∧ p.is_alive)

/-- `GameSession.get_civilians` (alive civilians). -/
def GameSession.get_civilians (s : GameSession) : List PlayerSession :=
  s.players.filter (fun p => p.role = some Role.civilian ∧ p.is_alive)

/-- `GameSessionManager.check_win_condition`. -/
def check_win_condition (s : GameSession) : Option Role :=
  let alive_spies := s.get_spies.length
  let alive_civilians := s.get_civilians.length
  if alive_spies = 0 then some Role.civilian
  else if alive_spies ≥ alive_civilians then some Role.spy
  else none

/-- The transition table of `GameSessionManager.transition_phase`
(`valid_transitions`; `FINISHED` is absent from the dict, i.e. `[]`). -/
def valid_transitions (p : GamePhase) : List GamePhase :=
  match p with
  | .waiting => [.init]
  | .init => [.description]
  | .description => [.voting]
  | .voting => [.elimination]
  | .elimination => [.description, .finished]
  | .finished => []

/-- `GameSessionManager.transition_phase`, as a state transformer paired with
an optional raised error: a `ValueError` leaves the session untouched because
the phase assignment happens only after the check. -/
def transition_phase (s : GameSession) (new_phase : GamePhase) :
    GameSession × Option String :=
  if new_phase ∈ valid_transitions s.phase then
    ({ s with phase := new_phase }, none)
  else
    (s, some "Invalid transition")

/-- The six allowed (source, target) pairs named by the specification. -/
def specAllowedTransition (current target : GamePhase) : Prop :=
  (current = .waiting ∧ target = .init) ∨
  (current = .init ∧ target = .description) ∨
  (current = .description ∧ target = .voting) ∨
  (current = .voting ∧ target = .elimination) ∨
  (current = .elimination ∧ target = .description) ∨
  (current = .elimination ∧ target = .finished)

/-- `GameSessionManager.start_new_round`: the round counter is incremented
*before* `transition_phase` runs, so an invalid-transition error escapes with
the counter already bumped and no `RoundRecord` appended. -/
def start_new_round (s : GameSession) : GameSession × Option String :=
  let s1 := { s with current_round := s.current_round + 1 }
  match transition_phase s1 GamePhase.description with
  | (s2, some e) => (s2, some e)
  | (s2, none) =>
      ({ s2 with round_history :=
          s2.round_history ++ [RoundRecord.new s2.current_round GamePhase.description] },
       none)

/-- `GameSessionManager.record_vote` restricted to the ledger it writes:
`current_round.votes[voter] = target` (dict assignment). -/
def record_vote (votes : List (String × String)) (voter target : String) :
    List (String × String) :=
  dictInsert voter target votes

/-- The tally computed by `GameSessionManager.tally_votes`:
`for target in votes.values(): vote_counts[target] = vote_counts.get(target, 0) + 1`. -/
def tally_votes_counts (votes : List (String × String)) : List (String × Nat) :=
  countValues (votes.map Prod.snd)

/-- `[name for name, count in vote_counts.items() if count == max_votes]`. -/
def topCandidates (vote_counts : List (String × Nat)) : List String :=
  (vote_counts.filter (fun p => p.2 = maxValues vote_counts)).map Prod.fst

/-- The decision step of `GameEngine.run_voting_round` on the completed primary
ballot set: a unique maximum is returned directly (`top_candidates[0]`), a tie
hands exactly the tied list to `_run_debate_and_revote`. -/
def run_voting_decision (votes : List (String × String)) :
    String ⊕ List String :=
  let vote_counts := tally_votes_counts votes
  match topCandidates vote_counts with
  | [t] => Sum.inl t
  | l => Sum.inr l

/-- One voter of the recording loop of `GameEngine._collect_votes`: a returned
target outside the candidate list or equal to the voter, and a raised call
(`none`, also covering a missing LLM instance), are replaced by
`random.choice` over the valid targets; nothing is recorded only when the
valid-target list is empty. -/
def collectVoteStep (candidates : List String) (vote : String → Option String)
    (choose : List String → String) (acc : List (String × String))
    (voter : String) : List (String × String) :=
  let valid := candidates.filter (fun c => c ≠ voter)
  match vote voter with
  | some t =>
      if t ∈ candidates ∧ t ≠ voter then record_vote acc voter t
      else if valid = [] then acc
      else record_vote acc voter (choose valid)
  | none =>
      if valid = [] then acc
      else record_vote acc voter (choose valid)

/-- `GameEngine._collect_votes`: one recording pass over the alive speaking
order (results are applied in speaking order, not completion order). -/
def collect_votes (order candidates : List String)
    (vote : String → Option String) (choose : List String → String) :
    List (String × String) :=
  order.foldl (collectVoteStep candidates vote choose) []

/-- The re-vote tally of `GameEngine._run_debate_and_revote`:
`vote_counts = {c: 0 for c in tie_candidates}`, then one ballot per voter,
with ballots outside the tied set (and raised calls) replaced by
`random.choice(tie_candidates)`. -/
def revoteStep (tie : List String) (vote_after_debate : String → Option String)
    (choose : List String → String) (cnts : List (String × Nat))
    (voter : String) : List (String × Nat) :=
  match vote_after_debate voter with
  | some t => if t ∈ tie then bumpCount cnts t else bumpCount cnts (choose tie)
  | none => bumpCount cnts (choose tie)

/-- The accumulated re-vote tally (see `revoteStep`), starting from
`{c: 0 for c in tie_candidates}`. -/
def revoteCounts (tie voters : List String)
    (vote_after_debate : String → Option String)
    (choose : List String → String) : List (String × Nat) :=
  voters.foldl (revoteStep tie vote_after_debate choose)
    (tie.map (fun c => (c, 0)))

/-- The elimination decision of `GameEngine._run_debate_and_revote`: only alive
non-candidates vote; a unique re-vote maximum is eliminated, a persisting tie
is resolved by `random.choice` over the re-vote leaders (`top_candidates[0] if
top_candidates else random.choice(tie_candidates)` in the degenerate branch). -/
def debate_revote (tie alive_order : List String)
    (vote_after_debate : String → Option String)
    (choose : List String → String) : String :=
  let voters := alive_order.filter (fun n => n ∉ tie)
  let vote_counts := revoteCounts tie voters vote_after_debate choose
  let max_votes := maxValues vote_counts
  let top := (vote_counts.filter (fun p => p.2 = max_votes)).map Prod.fst
  match top with
  | [] => choose tie
  | [t] => t
  | l => choose l

/-- `GameSessionManager.record_human_vote` restricted to the ledger it writes. -/
def record_human_vote (rec : RoundRecord) (voter target : String) : RoundRecord :=
  { rec with human_votes := dictInsert voter target rec.human_votes }

/-- `GameSessionManager.tally_human_votes`: derives `human_vote_counts` from the
recorded `human_votes` ledger (the "most robotic" computation is only logged). -/
def tally_human_votes (rec : RoundRecord) : RoundRecord :=
  { rec with human_vote_counts := countValues (rec.human_votes.map Prod.snd) }

/-- The ballot-collection loop of `GameEngine.run_human_detection_round` acting
on the current `RoundRecord`: valid ballots are recorded, invalid ballots and
raised calls fall back to `random.choice` over the other alive players. -/
def humanVoteStep (candidates : List String)
    (vote_human : String → Option String) (choose : List String → String)
    (r : RoundRecord) (voter : String) : RoundRecord :=
  let valid := candidates.filter (fun c => c ≠ voter)
  match vote_human voter with
  | some t =>
      if t ∈ valid then record_human_vote r voter t
      else if valid = [] then r
      else record_human_vote r voter (choose valid)
  | none =>
      if valid = [] then r
      else record_human_vote r voter (choose valid)

/-- The ballot-collection loop of `GameEngine.run_human_detection_round`
(see `humanVoteStep`). -/
def collectHumanVotes (order candidates : List String)
    (vote_human : String → Option String) (choose : List String → String)
    (rec : RoundRecord) : RoundRecord :=
  order.foldl (humanVoteStep candidates vote_human choose) rec

/-- `GameEngine.run_human_detection_round`: collects the advisory ballots and
tallies them into the current round record; the tie check at the end only logs
and the function never eliminates anyone. -/
def run_human_detection_round (s : GameSession)
    (vote_human : String → Option String) (choose : List String → String) :
    GameSession :=
  let candidates := s.get_alive_player_names
  let order := s.speaking_order.filter (fun n => n ∈ candidates)
  { s with round_history :=
      s.round_history.dropLast ++
        (s.round_history.getLast?.map
          (fun r => tally_human_votes (collectHumanVotes order candidates vote_human choose r))).toList }

/-- `GameSessionManager.get_alive_speaking_order`. -/
def get_alive_speaking_order (s : GameSession) : List String :=
  s.speaking_order.filter (fun n => n ∈ s.get_alive_player_names)

/-- The fixed fallback statement of `GameEngine.run_description_round`. -/
def fallback_description : String := "这个东西很常见。"

/-- One line of `GameSessionManager.format_current_round_descriptions`. -/
def formatDescLine (name desc : String) : String := "【" ++ name ++ "】: " ++ desc

/-- `GameSessionManager.format_current_round_descriptions`: the speaking order
iterated in order, keeping the players that already have a description this
round. The source iterates the full speaking order and skips absent names; in a
description round only alive speakers are recorded, so iterating the alive
order is extensionally the same string (same lines, same order). -/
def format_current_round_descriptions (speaking_order : List String)
    (descs : List (String × String)) : String :=
  joinSep "\n"
    (speaking_order.filterMap (fun name =>
      (alookup name descs).map (fun d => formatDescLine name d)))

/-- The per-round mutable state threaded through
`GameEngine.run_description_round`: the current round's `descriptions` dict,
the per-player `descriptions` audit lists (`PlayerSession.descriptions`), the
running `history` text handed to the next speaker, and the trace of
`(speaker, history text that speaker received)` in speaking order. -/
structure DescState where
  descs : List (String × String)
  playerDescs : List (String × List String)
  history : String
  trace : List (String × String)
deriving DecidableEq

/-- `GameSessionManager.record_description`: writes the round record's
`descriptions` dict and appends to the player's own `descriptions` list. -/
def record_description (st : DescState) (name desc : String) : DescState :=
  { st with
      descs := dictInsert name desc st.descs,
      playerDescs :=
        dictInsert name (((alookup name st.playerDescs).getD []) ++ [desc]) st.playerDescs }

/-- One iteration of the speaker loop in `GameEngine.run_description_round`.
`behavior p h = some d` models `player.describe(...)` returning `d` when handed
the history text `h`; `none` models a raised call. On success the running
history is rebuilt from the recorded descriptions; on failure the fallback is
recorded and the history rebuild is skipped (the `except` branch does not touch
`history`). -/
def descStep (speaking_order : List String) (round_header base_history : String)
    (behavior : String → String → Option String) (st : DescState) (p : String) :
    DescState :=
  match behavior p st.history with
  | some d =>
      let st1 := record_description { st with trace := st.trace ++ [(p, st.history)] } p d
      let current := format_current_round_descriptions speaking_order st1.descs
      { st1 with history := if current ≠ "" then base_history ++ round_header ++ current else base_history }
  | none =>
      record_description { st with trace := st.trace ++ [(p, st.history)] } p fallback_description

/-- `GameEngine.run_description_round` over the alive speaking order.
`base_history` is `format_round_history()` (constant within the round) and
`round_header` is the `"\n\n=== 第 N 轮（进行中）===\n"` banner. -/
def run_description_round (speaking_order : List String)
    (round_header base_history : String)
    (behavior : String → String → Option String) : DescState :=
  speaking_order.foldl (descStep speaking_order round_header base_history behavior)
    ⟨[], [], base_history, []⟩

/-- The state of `run_description_round` after the first `m` speakers. -/
def descStateAt (speaking_order : List String)
    (round_header base_history : String)
    (behavior : String → String → Option String) (m : Nat) : DescState :=
  (speaking_order.take m).foldl (descStep speaking_order round_header base_history behavior)
    ⟨[], [], base_history, []⟩

/-- `models.Message` (timestamp omitted). -/
structure Msg where
  role : String
  content : String
deriving DecidableEq

/-- `models.ConversationContext`. -/
structure ConversationContext where
  player_name : String
  messages : List Msg
  token_count : Nat
  max_tokens : Nat
  recent_messages_count : Nat
  memory_summary : String
deriving DecidableEq

/-- The token estimate `len(content) // 3`. -/
def estTokens (content : String) : Nat := content.length / 3

/-- The summary fragment extracted from one old message by
`ConversationContext._compress_history`. -/
def summaryPart (m : Msg) : Option String :=
  if m.role = "assistant" then some ("[我的发言] " ++ m.content.take 50 ++ "...")
  else if m.role = "user" ∧ "投票".data <:+: m.content.data then some "[进行了投票]"
  else if m.role = "user" ∧ "描述".data <:+: m.content.data then some "[进行了描述阶段]"
  else none

/-- Python `l[:-r]`: drops the last `r` elements when `0 < r ≤ len`, but
`l[:-0]` is `l[:0] = []` because `-0 == 0`. -/
def pyTakeNeg (r : Nat) (l : List α) : List α :=
  if r = 0 then [] else l.take (l.length - r)

/-- Python `l[-r:]`: keeps the last `r` elements when `0 < r ≤ len`, but
`l[-0:]` is `l[0:] = l` because `-0 == 0`. -/
def pyDropNeg (r : Nat) (l : List α) : List α :=
  if r = 0 then l else l.drop (l.length - r)

/-- `ConversationContext._compress_history`. Python slices map to list
operations: `msgs[1:-r]` is `(pyTakeNeg r msgs).drop 1` (empty at `r = 0`,
where `msgs[1:-0] = msgs[1:0] = []`), `msgs[:-r]` is `pyTakeNeg r msgs`,
`msgs[-r:]` is `pyDropNeg r msgs` (the whole list at `r = 0`), and
`parts[-5:]` is `drop (len-5)` (5 is a positive constant). `memory_summary`
is only overwritten when this pass extracted at least one fragment. -/
def _compress_history (c : ConversationContext) : ConversationContext :=
  if c.messages.length ≤ c.recent_messages_count + 1 then c
  else
    let system_msg : Option Msg :=
      match c.messages with
      | m :: _ => if m.role = "system" then some m else none
      | [] => none
    let old_messages :=
      match system_msg with
      | some _ => (pyTakeNeg c.recent_messages_count c.messages).drop 1
      | none => pyTakeNeg c.recent_messages_count c.messages
    let summary_parts := old_messages.filterMap summaryPart
    let memory_summary :=
      if summary_parts ≠ [] then
        joinSep "; " (summary_parts.drop (summary_parts.length - 5))
      else c.memory_summary
    let recent := pyDropNeg c.recent_messages_count c.messages
    let base : List Msg := match system_msg with | some m => [m] | none => []
    let with_summary :=
      if memory_summary ≠ "" then
        base ++ [⟨"user", "[历史记忆摘要] " ++ memory_summary⟩,
                 ⟨"assistant", "我已了解之前的情况，请继续。"⟩]
      else base
    let msgs := with_summary ++ recent
    { c with
        messages := msgs,
        memory_summary := memory_summary,
        token_count := (msgs.map (fun m => estTokens m.content)).sum }

/-- `ConversationContext._manage_memory`: the 80% threshold
`token_count > max_tokens * 0.8` written over integers as
`10 * token_count > 8 * max_tokens` (equivalent, since both sides are ints). -/
def _manage_memory (c : ConversationContext) : ConversationContext :=
  if 10 * c.token_count > 8 * c.max_tokens then _compress_history c else c

/-- `ConversationContext.add_message`. -/
def add_message (c : ConversationContext) (role content : String) :
    ConversationContext :=
  _manage_memory
    { c with
        messages := c.messages ++ [⟨role, content⟩],
        token_count := c.token_count + estTokens content }

/-- One entry of the `player_configs` argument of
`GameSessionManager.create_session`. -/
structure PlayerConfig where
  name : String
  provider : String
  model : String
deriving DecidableEq

/-- `GameSessionManager.create_session`: builds the session and the shuffled
speaking order. The source performs **no validation of `spy_count`** — any
value is accepted and stored. `shuffle` abstracts `random.shuffle` (a
permutation of the name list). -/
def create_session (player_configs : List PlayerConfig) (spy_count : Nat)
    (shuffle : List String → List String) : GameSession :=
  let players := player_configs.map (fun cfg =>
    PlayerSession.mk cfg.name none none true)
  { total_players := player_configs.length
    spy_count := spy_count
    civilian_word := ""
    spy_word := ""
    players := players
    phase := GamePhase.waiting
    current_round := 0
    speaking_order := shuffle (players.map PlayerSession.name)
    round_history := []
    winner := none }

/-- `random.sample(population, k)`: defined for `0 ≤ k ≤ len(population)` and
raising `ValueError` otherwise; modelled as the deterministic sample taking the
first `k` names (which sample is drawn is irrelevant to the claims below). -/
def samplePy (l : List String) (k : Nat) : Option (List String) :=
  if k ≤ l.length then some (l.take k) else none

/-- `GameSessionManager.initialize_game`: stores the two words, samples
`spy_count` spies, assigns roles and words to every player and moves the phase
to `INIT`. There is **no range check on `spy_count`**; the only failure is
`random.sample` raising when `spy_count` exceeds the player count, which
happens after the words are already stored (the conversation-context
initialisation is orthogonal to the claims and omitted). -/
def init_game (s : GameSession) (civilian_word spy_word : String) :
    GameSession × Option String :=
  let s1 := { s with civilian_word := civilian_word, spy_word := spy_word }
  match samplePy (s1.players.map PlayerSession.name) s1.spy_count with
  | none => (s1, some "Sample larger than population or is negative")
  | some spy_names =>
      let players := s1.players.map (fun p =>
        if p.name ∈ spy_names then
          { p with role := some Role.spy, word := some spy_word }
        else
          { p with role := some Role.civilian, word := some civilian_word })
      ({ s1 with players := players, phase := GamePhase.init }, none)

/-! ### Concrete inputs used by witnesses and counterexamples -/

/-- A deterministic stand-in for `random.choice`: picks the first element. -/
def chooseHead (l : List String) : String := l.headD ""

/-- Three-player roster used by concrete evaluations. -/
def cfgsABC : List PlayerConfig :=
  [⟨"A", "p", "m"⟩, ⟨"B", "p", "m"⟩, ⟨"C", "p", "m"⟩]

/-- A mid-game session in the `voting` phase (for the `start_new_round` and
frame claims): three alive players, one round on record. -/
def sessionVoting : GameSession :=
  { total_players := 3
    spy_count := 1
    civilian_word := "苹果"
    spy_word := "梨"
    players :=
      [⟨"A", some Role.civilian, some "苹果", true⟩,
       ⟨"B", some Role.spy, some "梨", true⟩,
       ⟨"C", some Role.civilian, some "苹果", true⟩]
    phase := GamePhase.voting
    current_round := 1
    speaking_order := ["B", "A", "C"]
    round_history :=
      [{ RoundRecord.new 1 GamePhase.description with
           descriptions := [("B", "圆圆的"), ("A", "甜甜的"), ("C", "红色的")] }]
    winner := none }

/-- A two-player tie set used by concrete evaluations. -/
def tieAB : List String := ["A", "B"]

/-- A four-player alive speaking order used by concrete evaluations. -/
def orderBACD : List String := ["B", "A", "C", "D"]

/-- A concrete re-vote behavior: player C answers "A", everyone else raises. -/
def vadW : String → Option String := fun v => if v = "C" then some "A" else none

/-- An empty conversation context with a small budget (`max_tokens = 10`,
`recent_messages_count = 2`). -/
def ctxEmpty : ConversationContext := ⟨"p", [], 0, 10, 2, ""⟩

/-- The context after three user messages of 9 characters each: the token
estimate (9) exceeds the 80% threshold (8), so the third `add_message`
triggers a compression pass. -/
def ctxOverflow : ConversationContext :=
  add_message (add_message (add_message ctxEmpty "user" "aaaaaaaaa") "user" "aaaaaaaaa")
    "user" "aaaaaaaaa"

/-- A context with a leading system message and more than
`recent_messages_count + 1` messages. -/
def ctxFour : ConversationContext :=
  ⟨"q", [⟨"system", "sys"⟩, ⟨"user", "u1"⟩, ⟨"user", "u2"⟩, ⟨"user", "u3"⟩], 4, 8000, 1, ""⟩

/-- A concrete description behavior: player A raises, everyone else answers
with a fixed statement regardless of the received history. -/
def behaviorAB : String → String → Option String :=
  fun p _ => if p = "A" then none else some "红红的，圆圆的"

/-- `format_round_history()` for the first round. -/
def baseHist : String := "(这是第一轮)"

/-- The in-round history banner for round 1. -/
def headerR1 : String := "\n\n=== 第 1 轮（进行中）===\n"

/-! ### Helper lemmas on the dict model -/

theorem alookup_dictInsert_self (k : String) (v : α) (l : List (String × α)) :
    alookup k (dictInsert k v l) = some v := by
  induction l with
  | nil => simp [alookup, dictInsert]
  | cons hd tl ih =>
      obtain ⟨k', v'⟩ := hd
      by_cases hk : k' = k
      · subst hk; simp [alookup, dictInsert]
      · simp [alookup, dictInsert, hk, ih]

theorem alookup_dictInsert_ne (k a : String) (v : α) (l : List (String × α))
    (h : a ≠ k) : alookup a (dictInsert k v l) = alookup a l := by
  induction l with
  | nil => simp [alookup, dictInsert, Ne.symm h]
  | cons hd tl ih =>
      obtain ⟨k', v'⟩ := hd
      by_cases hk : k' = k
      · subst hk
        simp [alookup, dictInsert, Ne.symm h]
      · by_cases ha : k' = a
        · subst ha; simp [alookup, dictInsert, hk]
        · simp [alookup, dictInsert, hk, ha, ih]

theorem keys_dictInsert_mem (k : String) (v : α) (l : List (String × α))
    (h : k ∈ l.map Prod.fst) :
    (dictInsert k v l).map Prod.fst = l.map Prod.fst := by
  induction l with
  | nil => simp at h
  | cons hd tl ih =>
      obtain ⟨k', v'⟩ := hd
      by_cases hk : k' = k
      · subst hk; simp [dictInsert]
      · simp only [List.map_cons, List.mem_cons] at h
        rcases h with h | h
        · exact absurd h.symm hk
        · simp [dictInsert, hk, ih h]

theorem dictInsert_eq_append (k : String) (v : α) (l : List (String × α))
    (h : k ∉ l.map Prod.fst) : dictInsert k v l = l ++ [(k, v)] := by
  induction l with
  | nil => simp [dictInsert]
  | cons hd tl ih =>
      obtain ⟨k', v'⟩ := hd
      simp only [List.map_cons, List.mem_cons, not_or] at h
      simp [dictInsert, Ne.symm h.1, ih h.2]

theorem mem_keys_dictInsert (k a : String) (v : α) (l : List (String × α)) :
    a ∈ (dictInsert k v l).map Prod.fst ↔ a = k ∨ a ∈ l.map Prod.fst := by
  induction l with
  | nil => simp [dictInsert]
  | cons hd tl ih =>
      obtain ⟨k', v'⟩ := hd
      by_cases hk : k' = k
      · subst hk
        simp [dictInsert]
      · simp [dictInsert, hk, ih]
        tauto

theorem keys_nodup_dictInsert (k : String) (v : α) (l : List (String × α))
    (h : (l.map Prod.fst).Nodup) : ((dictInsert k v l).map Prod.fst).Nodup := by
  by_cases hm : k ∈ l.map Prod.fst
  · rw [keys_dictInsert_mem k v l hm]; exact h
  · rw [dictInsert_eq_append k v l hm]
    simp only [List.map_append, List.map_cons, List.map_nil]
    refine List.Nodup.append h (List.nodup_singleton k) ?_
    intro a ha hb
    rw [List.mem_singleton] at hb
    subst hb
    exact hm ha

theorem mem_of_alookup_eq_some {l : List (String × α)} {k : String} {v : α}
    (h : alookup k l = some v) : (k, v) ∈ l := by
  induction l with
  | nil => simp [alookup] at h
  | cons hd tl ih =>
      obtain ⟨k', v'⟩ := hd
      by_cases hk : k' = k
      · subst hk
        simp [alookup] at h
        simp [h]
      · simp only [alookup, if_neg hk] at h
        exact List.mem_cons_of_mem _ (ih h)

theorem alookup_eq_some_of_mem_nodup {l : List (String × α)} {k : String} {v : α}
    (hn : (l.map Prod.fst).Nodup) (h : (k, v) ∈ l) : alookup k l = some v := by
  induction l with
  | nil => simp at h
  | cons hd tl ih =>
      obtain ⟨k', v'⟩ := hd
      simp only [List.map_cons, List.nodup_cons] at hn
      rcases List.mem_cons.mp h with h | h
      · have hk : k = k' := congrArg Prod.fst h
        have hv : v = v' := congrArg Prod.snd h
        subst hk
        subst hv
        simp [alookup]
      · have hk : k' ≠ k := by
          rintro rfl
          exact hn.1 (List.mem_map.mpr ⟨(k', v), h, rfl⟩)
        simp [alookup, hk, ih hn.2 h]

theorem isSome_alookup_iff_mem_keys (l : List (String × α)) (k : String) :
    (alookup k l).isSome ↔ k ∈ l.map Prod.fst := by
  induction l with
  | nil => simp [alookup]
  | cons hd tl ih =>
      obtain ⟨k', v'⟩ := hd
      by_cases hk : k' = k
      · subst hk; simp [alookup]
      · simp [alookup, hk, ih, Ne.symm hk]

/-! ### Helper lemmas on tallies, maxima and joined lines -/

theorem alookup_foldl_bumpCount (ts : List String) (acc : List (String × Nat))
    (t : String) :
    alookup t (ts.foldl bumpCount acc) =
      if t ∈ ts then some ((alookup t acc).getD 0 + ts.count t) else alookup t acc := by
  induction ts generalizing acc with
  | nil => simp
  | cons t' ts ih =>
      simp only [List.foldl_cons]
      rw [ih (bumpCount acc t')]
      by_cases ht : t = t'
      · subst ht
        have hb : alookup t (bumpCount acc t) = some ((alookup t acc).getD 0 + 1) :=
          alookup_dictInsert_self ..
        by_cases hmem : t ∈ ts
        · rw [if_pos hmem, if_pos (List.mem_cons_self t ts), hb]
          simp only [Option.getD_some, Option.some.injEq, List.count_cons, if_pos rfl]
          simp
          omega
        · rw [if_neg hmem, if_pos (List.mem_cons_self t ts), hb]
          simp only [Option.some.injEq, List.count_cons]
          simp [List.count_eq_zero_of_not_mem hmem]
      · have hb : alookup t (bumpCount acc t') = alookup t acc :=
          alookup_dictInsert_ne _ _ _ _ ht
        by_cases hmem : t ∈ ts
        · rw [if_pos hmem, if_pos (List.mem_cons_of_mem t' hmem), hb]
          simp [List.count_cons, ht]
        · rw [if_neg hmem, hb, if_neg (by simp [List.mem_cons, ht, hmem])]

theorem alookup_countValues (ts : List String) (t : String) :
    alookup t (countValues ts) =
      if t ∈ ts then some (ts.count t) else none := by
  rw [countValues, alookup_foldl_bumpCount]
  simp [alookup]

theorem keys_nodup_foldl_bumpCount (ts : List String) (acc : List (String × Nat))
    (h : (acc.map Prod.fst).Nodup) :
    ((ts.foldl bumpCount acc).map Prod.fst).Nodup := by
  induction ts generalizing acc with
  | nil => simpa
  | cons t' ts ih =>
      simp only [List.foldl_cons]
      exact ih _ (keys_nodup_dictInsert _ _ _ h)

theorem keys_nodup_countValues (ts : List String) :
    ((countValues ts).map Prod.fst).Nodup :=
  keys_nodup_foldl_bumpCount ts [] (by simp)

theorem mem_keys_foldl_bumpCount (ts : List String) (acc : List (String × Nat))
    (t : String) :
    t ∈ ((ts.foldl bumpCount acc).map Prod.fst) ↔ t ∈ acc.map Prod.fst ∨ t ∈ ts := by
  induction ts generalizing acc with
  | nil => simp
  | cons t' ts ih =>
      simp only [List.foldl_cons]
      rw [ih (bumpCount acc t'), bumpCount, mem_keys_dictInsert]
      simp only [List.mem_cons]
      tauto

theorem mem_keys_countValues (ts : List String) (t : String) :
    t ∈ ((countValues ts).map Prod.fst) ↔ t ∈ ts := by
  rw [countValues, mem_keys_foldl_bumpCount]
  simp

theorem entry_countValues {ts : List String} {t : String} {n : Nat}
    (h : (t, n) ∈ countValues ts) : t ∈ ts ∧ n = ts.count t := by
  have hl := alookup_eq_some_of_mem_nodup (keys_nodup_countValues ts) h
  rw [alookup_countValues] at hl
  by_cases hm : t ∈ ts
  · rw [if_pos hm] at hl
    exact ⟨hm, (Option.some.injEq .. ▸ hl).symm⟩
  · rw [if_neg hm] at hl
    cases hl

theorem le_foldl_max (l : List Nat) (a x : Nat) (h : x ∈ l) : x ≤ l.foldl max a := by
  induction l generalizing a with
  | nil => cases h
  | cons y l ih =>
      rcases List.mem_cons.mp h with rfl | h
      · calc x ≤ max a x := le_max_right ..
          _ ≤ (l.foldl max (max a x)) := by
            clear ih h
            induction l generalizing a x with
            | nil => simp
            | cons z l ih2 => exact le_trans (le_max_left ..) (ih2 ..)
      · exact ih _ h

theorem init_le_foldl_max (l : List Nat) (a : Nat) : a ≤ l.foldl max a := by
  induction l generalizing a with
  | nil => simp
  | cons y l ih => exact le_trans (le_max_left a y) (ih (max a y))

theorem foldl_max_le (l : List Nat) (a m : Nat) (ha : a ≤ m)
    (h : ∀ x ∈ l, x ≤ m) : l.foldl max a ≤ m := by
  induction l generalizing a with
  | nil => simpa
  | cons y l ih =>
      refine ih (max a y) (max_le ha (h y (List.mem_cons_self ..))) ?_
      exact fun x hx => h x (List.mem_cons_of_mem _ hx)

theorem foldl_max_eq_init_or_mem (l : List Nat) (a : Nat) :
    l.foldl max a = a ∨ l.foldl max a ∈ l := by
  induction l generalizing a with
  | nil => left; rfl
  | cons y l ih =>
      rcases ih (max a y) with h | h
      · rcases Nat.le_total a y with hy | hy
        · right
          rw [List.foldl_cons, h, max_eq_right hy]
          exact List.mem_cons_self ..
        · left
          rw [List.foldl_cons, h, max_eq_left hy]
      · right
        exact List.mem_cons_of_mem _ h

theorem data_append (s t : String) : (s ++ t).data = s.data ++ t.data :=
  String.data_append s t

theorem infix_joinSep (sep : String) (l : List String) (s : String) (h : s ∈ l) :
    s.data <:+: (joinSep sep l).data := by
  induction l with
  | nil => cases h
  | cons a rest ih =>
      cases rest with
      | nil =>
          rcases List.mem_cons.mp h with rfl | h
          · exact List.infix_rfl
          · cases h
      | cons b r =>
          rcases List.mem_cons.mp h with rfl | h
          · rw [joinSep, data_append, data_append]
            exact ((List.prefix_append s.data sep.data).trans
              (List.prefix_append _ _)).isInfix
          · rw [joinSep, data_append, data_append]
            exact (ih h).trans (List.suffix_append _ _).isInfix

/-! ### C1: the win evaluator is a pure function of the two alive counts -/

/-- C1: `check_win_condition` is a pure function of the pair
(alive minority count, alive majority count): any two sessions with the same
alive spy and civilian counts get the same outcome, the outcome is the
Majority role (civilian) when the alive spy count is 0, the Minority role
(spy) when the alive spy count is ≥ the alive civilian count (and nonzero),
and no winner otherwise. -/
theorem check_win_condition_pure (s t : GameSession)
    (hm : s.get_spies.length = t.get_spies.length)
    (hM : s.get_civilians.length = t.get_civilians.length) :
    check_win_condition s = check_win_condition t ∧
    (s.get_spies.length = 0 → check_win_condition s = some Role.civilian) ∧
    (s.get_spies.length ≠ 0 → s.get_civilians.length ≤ s.get_spies.length →
      check_win_condition s = some Role.spy) ∧
    (0 < s.get_spies.length → s.get_spies.length < s.get_civilians.length →
      check_win_condition s = none) := by
  refine ⟨by simp only [check_win_condition, hm, hM], ?_, ?_, ?_⟩
  · intro h0
    simp [check_win_condition, h0]
  · intro h0 hge
    simp only [check_win_condition]
    rw [if_neg h0, if_pos hge]
  · intro hpos hlt
    simp only [check_win_condition]
    rw [if_neg (by omega), if_neg (by omega)]

/-- Witness for C1 at a concrete session. -/
theorem check_win_condition_pure_witness :
    check_win_condition sessionVoting = check_win_condition sessionVoting ∧
    (sessionVoting.get_spies.length = 0 →
      check_win_condition sessionVoting = some Role.civilian) ∧
    (sessionVoting.get_spies.length ≠ 0 →
      sessionVoting.get_civilians.length ≤ sessionVoting.get_spies.length →
      check_win_condition sessionVoting = some Role.spy) ∧
    (0 < sessionVoting.get_spies.length →
      sessionVoting.get_spies.length < sessionVoting.get_civilians.length →
      check_win_condition sessionVoting = none) :=
  check_win_condition_pure sessionVoting sessionVoting rfl rfl

/-! ### C4: the phase state machine accepts exactly the table transitions -/

theorem mem_valid_transitions_iff (q p : GamePhase) :
    p ∈ valid_transitions q ↔ specAllowedTransition q p := by
  cases q <;> cases p <;> simp [valid_transitions, specAllowedTransition]

/-- C4: `transition_phase` succeeds exactly on the pairs of the transition
table (Waiting→Init, Init→Description, Description→Voting, Voting→Elimination,
Elimination→Description, Elimination→Finished), setting the phase to the
requested target; every other pair raises the invalid-transition error and
leaves the session (in particular its phase) unchanged. -/
theorem transition_phase_exact (s : GameSession) (p : GamePhase) :
    (specAllowedTransition s.phase p ↔
      transition_phase s p = ({ s with phase := p }, none)) ∧
    (¬ specAllowedTransition s.phase p ↔
      transition_phase s p = (s, some "Invalid transition")) := by
  by_cases h : p ∈ valid_transitions s.phase
  · have hs := (mem_valid_transitions_iff s.phase p).mp h
    refine ⟨⟨fun _ => by simp [transition_phase, h], fun _ => hs⟩, ?_, ?_⟩
    · intro hn
      exact absurd hs hn
    · intro heq
      rw [transition_phase, if_pos h] at heq
      have := congrArg Prod.snd heq
      simp at this
  · have hs := fun hh => h ((mem_valid_transitions_iff s.phase p).mpr hh)
    refine ⟨⟨fun hh => absurd hh hs, ?_⟩, fun _ => by simp [transition_phase, h],
      fun _ => hs⟩
    intro heq
    rw [transition_phase, if_neg h] at heq
    have := congrArg Prod.snd heq
    simp at this

/-! ### C10: start_new_round on a wrong phase bumps the counter, then raises -/

/-- C10: calling `start_new_round` when the phase is neither Init nor
Elimination raises the invalid-transition error only after incrementing
`current_round`: the counter stays incremented while no `RoundRecord` is
appended and the phase is unchanged. -/
theorem start_new_round_partial_on_error (s : GameSession)
    (h1 : s.phase ≠ GamePhase.init) (h2 : s.phase ≠ GamePhase.elimination) :
    start_new_round s =
      ({ s with current_round := s.current_round + 1 }, some "Invalid transition") := by
  have hmem : GamePhase.description ∉ valid_transitions s.phase := by
    cases hp : s.phase <;> simp_all [valid_transitions]
  simp [start_new_round, transition_phase, hmem]

/-- Witness for C10: a session in the Voting phase. -/
theorem start_new_round_partial_on_error_witness :
    start_new_round sessionVoting =
      ({ sessionVoting with current_round := sessionVoting.current_round + 1 },
        some "Invalid transition") :=
  start_new_round_partial_on_error sessionVoting (by decide) (by decide)

/-! ### C9: the advisory round never eliminates -/

theorem humanVoteStep_frame (candidates : List String)
    (vh : String → Option String) (ch : List String → String)
    (r : RoundRecord) (voter : String) :
    (humanVoteStep candidates vh ch r voter).round_number = r.round_number ∧
    (humanVoteStep candidates vh ch r voter).phase = r.phase ∧
    (humanVoteStep candidates vh ch r voter).descriptions = r.descriptions ∧
    (humanVoteStep candidates vh ch r voter).votes = r.votes ∧
    (humanVoteStep candidates vh ch r voter).vote_counts = r.vote_counts ∧
    (humanVoteStep candidates vh ch r voter).eliminated = r.eliminated ∧
    (humanVoteStep candidates vh ch r voter).eliminated_role = r.eliminated_role := by
  cases hv : vh voter <;>
    simp only [humanVoteStep, hv, record_human_vote] <;>
    split_ifs <;> simp

theorem collectHumanVotes_frame (order candidates : List String)
    (vh : String → Option String) (ch : List String → String)
    (rec : RoundRecord) :
    (collectHumanVotes order candidates vh ch rec).round_number = rec.round_number ∧
    (collectHumanVotes order candidates vh ch rec).phase = rec.phase ∧
    (collectHumanVotes order candidates vh ch rec).descriptions = rec.descriptions ∧
    (collectHumanVotes order candidates vh ch rec).votes = rec.votes ∧
    (collectHumanVotes order candidates vh ch rec).vote_counts = rec.vote_counts ∧
    (collectHumanVotes order candidates vh ch rec).eliminated = rec.eliminated ∧
    (collectHumanVotes order candidates vh ch rec).eliminated_role = rec.eliminated_role := by
  induction order generalizing rec with
  | nil => simp [collectHumanVotes]
  | cons a l ih =>
      have hstep := humanVoteStep_frame candidates vh ch rec a
      have htail := ih (humanVoteStep candidates vh ch rec a)
      simp only [collectHumanVotes, List.foldl_cons] at *
      exact ⟨htail.1.trans hstep.1, htail.2.1.trans hstep.2.1,
        htail.2.2.1.trans hstep.2.2.1, htail.2.2.2.1.trans hstep.2.2.2.1,
        htail.2.2.2.2.1.trans hstep.2.2.2.2.1,
        htail.2.2.2.2.2.1.trans hstep.2.2.2.2.2.1,
        htail.2.2.2.2.2.2.trans hstep.2.2.2.2.2.2⟩

theorem tally_human_votes_frame (r : RoundRecord) :
    (tally_human_votes r).round_number = r.round_number ∧
    (tally_human_votes r).phase = r.phase ∧
    (tally_human_votes r).descriptions = r.descriptions ∧
    (tally_human_votes r).votes = r.votes ∧
    (tally_human_votes r).vote_counts = r.vote_counts ∧
    (tally_human_votes r).eliminated = r.eliminated ∧
    (tally_human_votes r).eliminated_role = r.eliminated_role := by
  simp [tally_human_votes]

/-- C9: `run_human_detection_round` never eliminates: every player's
`is_alive` flag (indeed the whole player list), the session phase and round
counter, all earlier round records, and the current round's `eliminated`,
`eliminated_role`, `descriptions`, `votes` and `vote_counts` fields are left
unchanged for every ballot outcome; only the current round's `human_votes`
and `human_vote_counts` ledgers may change. -/
theorem run_human_detection_round_frame (s : GameSession)
    (vh : String → Option String) (ch : List String → String)
    (h : s.round_history ≠ []) :
    (run_human_detection_round s vh ch).players = s.players ∧
    (run_human_detection_round s vh ch).phase = s.phase ∧
    (run_human_detection_round s vh ch).current_round = s.current_round ∧
    (run_human_detection_round s vh ch).round_history.length = s.round_history.length ∧
    (run_human_detection_round s vh ch).round_history.dropLast = s.round_history.dropLast ∧
    ∃ r r', s.round_history.getLast? = some r ∧
      (run_human_detection_round s vh ch).round_history.getLast? = some r' ∧
      r'.eliminated = r.eliminated ∧ r'.eliminated_role = r.eliminated_role ∧
      r'.descriptions = r.descriptions ∧ r'.votes = r.votes ∧
      r'.vote_counts = r.vote_counts ∧ r'.round_number = r.round_number ∧
      r'.phase = r.phase := by
  obtain ⟨r, hr⟩ : ∃ r, s.round_history.getLast? = some r := by
    cases hl : s.round_history.getLast? with
    | none => exact absurd (List.getLast?_eq_none_iff.mp hl) h
    | some r => exact ⟨r, rfl⟩
  set f : RoundRecord → RoundRecord := fun rr =>
    tally_human_votes
      (collectHumanVotes
        (s.speaking_order.filter (fun n => n ∈ s.get_alive_player_names))
        s.get_alive_player_names vh ch rr) with hf
  have hrun : (run_human_detection_round s vh ch).round_history =
      s.round_history.dropLast ++ [f r] := by
    simp [run_human_detection_round, hr, hf]
  have hframe :
      (f r).eliminated = r.eliminated ∧ (f r).eliminated_role = r.eliminated_role ∧
      (f r).descriptions = r.descriptions ∧ (f r).votes = r.votes ∧
      (f r).vote_counts = r.vote_counts ∧ (f r).round_number = r.round_number ∧
      (f r).phase = r.phase := by
    have h1 := collectHumanVotes_frame
      (s.speaking_order.filter (fun n => n ∈ s.get_alive_player_names))
      s.get_alive_player_names vh ch r
    have h2 := tally_human_votes_frame
      (collectHumanVotes
        (s.speaking_order.filter (fun n => n ∈ s.get_alive_player_names))
        s.get_alive_player_names vh ch r)
    exact ⟨h2.2.2.2.2.2.1.trans h1.2.2.2.2.2.1,
      h2.2.2.2.2.2.2.trans h1.2.2.2.2.2.2,
      h2.2.2.1.trans h1.2.2.1, h2.2.2.2.1.trans h1.2.2.2.1,
      h2.2.2.2.2.1.trans h1.2.2.2.2.1, h2.1.trans h1.1, h2.2.1.trans h1.2.1⟩
  have hlen : s.round_history.length = s.round_history.dropLast.length + 1 := by
    have := List.length_dropLast s.round_history
    have hpos : 0 < s.round_history.length := List.length_pos.mpr h
    omega
  refine ⟨rfl, rfl, rfl, ?_, ?_, r, f r, hr, ?_, hframe.1, hframe.2.1,
    hframe.2.2.1, hframe.2.2.2.1, hframe.2.2.2.2.1, hframe.2.2.2.2.2.1,
    hframe.2.2.2.2.2.2⟩
  · rw [hrun, List.length_append]
    simpa using hlen.symm
  · rw [hrun, List.dropLast_concat]
  · rw [hrun, List.getLast?_concat]

/-- Witness for C9: the concrete mid-game session, all advisory calls raising. -/
theorem run_human_detection_round_frame_witness :
    (run_human_detection_round sessionVoting (fun _ => none) chooseHead).players = sessionVoting.players ∧
    (run_human_detection_round sessionVoting (fun _ => none) chooseHead).phase = sessionVoting.phase ∧
    (run_human_detection_round sessionVoting (fun _ => none) chooseHead).current_round = sessionVoting.current_round ∧
    (run_human_detection_round sessionVoting (fun _ => none) chooseHead).round_history.length = sessionVoting.round_history.length ∧
    (run_human_detection_round sessionVoting (fun _ => none) chooseHead).round_history.dropLast = sessionVoting.round_history.dropLast ∧
    ∃ r r', sessionVoting.round_history.getLast? = some r ∧
      (run_human_detection_round sessionVoting (fun _ => none) chooseHead).round_history.getLast? = some r' ∧
      r'.eliminated = r.eliminated ∧ r'.eliminated_role = r.eliminated_role ∧
      r'.descriptions = r.descriptions ∧ r'.votes = r.votes ∧
      r'.vote_counts = r.vote_counts ∧ r'.round_number = r.round_number ∧
      r'.phase = r.phase :=
  run_human_detection_round_frame sessionVoting (fun _ => none) chooseHead (by decide)

/-! ### C2: primary tally, unique maximum, tie set -/

theorem filter_eq_singleton_of_unique (l : List (String × Nat)) (w : String)
    (m : Nat) (hkeys : (l.map Prod.fst).Nodup) (hmem : (w, m) ∈ l)
    (hother : ∀ p ∈ l, p.1 ≠ w → p.2 ≠ m) :
    l.filter (fun p => p.2 = m) = [(w, m)] := by
  induction l with
  | nil => cases hmem
  | cons hd tl ih =>
      obtain ⟨k, v⟩ := hd
      simp only [List.map_cons, List.nodup_cons] at hkeys
      by_cases hk : k = w
      · subst hk
        have hhd : v = m := by
          rcases List.mem_cons.mp hmem with hh | hh
          · exact (congrArg Prod.snd hh).symm
          · exact absurd (List.mem_map.mpr ⟨(k, m), hh, rfl⟩) hkeys.1
        subst hhd
        have htl : tl.filter (fun p => p.2 = v) = [] := by
          rw [List.filter_eq_nil_iff]
          intro p hp
          have hpk : p.1 ≠ k := by
            rintro hpk
            exact hkeys.1 (List.mem_map.mpr ⟨p, hp, hpk⟩)
          simpa using hother p (List.mem_cons_of_mem _ hp) hpk
        simp [List.filter_cons, htl]
      · have hv : v ≠ m := by
          simpa using hother (k, v) (List.mem_cons_self ..) hk
        have hmem' : (w, m) ∈ tl := by
          rcases List.mem_cons.mp hmem with hh | hh
          · exact absurd (congrArg Prod.fst hh).symm hk
          · exact hh
        rw [List.filter_cons, if_neg (by simp [hv])]
        exact ih hkeys.2 hmem'
          (fun p hp hpw => hother p (List.mem_cons_of_mem _ hp) hpw)

theorem entry_mem_tally (votes : List (String × String)) (t : String)
    (h : t ∈ votes.map Prod.snd) :
    (t, (votes.map Prod.snd).count t) ∈ tally_votes_counts votes := by
  apply mem_of_alookup_eq_some
  rw [tally_votes_counts, alookup_countValues, if_pos h]

theorem maxValues_tally_eq_count (votes : List (String × String)) (w : String)
    (hw : w ∈ votes.map Prod.snd)
    (hmax : ∀ t ∈ votes.map Prod.snd,
      (votes.map Prod.snd).count t ≤ (votes.map Prod.snd).count w) :
    maxValues (tally_votes_counts votes) = (votes.map Prod.snd).count w := by
  apply le_antisymm
  · apply foldl_max_le _ _ _ (Nat.zero_le _)
    intro x hx
    obtain ⟨p, hp, rfl⟩ := List.mem_map.mp hx
    obtain ⟨hpt, hpc⟩ := entry_countValues hp
    rw [hpc]
    exact hmax p.1 hpt
  · apply le_foldl_max
    exact List.mem_map.mpr ⟨(w, (votes.map Prod.snd).count w), entry_mem_tally votes w hw, rfl⟩

theorem mem_topCandidates_tally (votes : List (String × String)) (t : String) :
    t ∈ topCandidates (tally_votes_counts votes) ↔
      t ∈ votes.map Prod.snd ∧
      (votes.map Prod.snd).count t = maxValues (tally_votes_counts votes) := by
  constructor
  · intro ht
    obtain ⟨p, hp, rfl⟩ := List.mem_map.mp ht
    have hpf : p ∈ tally_votes_counts votes := List.mem_of_mem_filter hp
    obtain ⟨h1, h2⟩ := entry_countValues hpf
    have hpv : p.2 = maxValues (tally_votes_counts votes) := by
      simpa using List.of_mem_filter hp
    exact ⟨h1, h2 ▸ hpv⟩
  · rintro ⟨h1, h2⟩
    refine List.mem_map.mpr ⟨(t, (votes.map Prod.snd).count t),
      List.mem_filter.mpr ⟨entry_mem_tally votes t h1, by simpa using h2⟩, rfl⟩

theorem nodup_topCandidates (votes : List (String × String)) :
    (topCandidates (tally_votes_counts votes)).Nodup := by
  have hsub : ((tally_votes_counts votes).filter
        (fun p => p.2 = maxValues (tally_votes_counts votes))).Sublist
      (tally_votes_counts votes) := List.filter_sublist _
  exact List.Nodup.sublist (hsub.map Prod.fst)
    (keys_nodup_countValues (votes.map Prod.snd))

theorem two_le_length_of_mem_ne {l : List α} {a b : α} (ha : a ∈ l) (hb : b ∈ l)
    (hab : a ≠ b) : 2 ≤ l.length := by
  cases l with
  | nil => cases ha
  | cons x tl =>
      cases tl with
      | nil =>
          rcases List.mem_singleton.mp ha with rfl
          rcases List.mem_singleton.mp hb with rfl
          exact absurd rfl hab
      | cons y tl2 =>
          simp only [List.length_cons]
          omega

theorem run_voting_decision_unique (votes : List (String × String)) (w : String)
    (hw : w ∈ votes.map Prod.snd)
    (huniq : ∀ t ∈ votes.map Prod.snd, t ≠ w →
      (votes.map Prod.snd).count t < (votes.map Prod.snd).count w) :
    run_voting_decision votes = Sum.inl w := by
  have hmax : maxValues (tally_votes_counts votes) = (votes.map Prod.snd).count w := by
    apply maxValues_tally_eq_count votes w hw
    intro t ht
    by_cases htw : t = w
    · rw [htw]
    · exact le_of_lt (huniq t ht htw)
  have hfilter : (tally_votes_counts votes).filter
      (fun p => p.2 = maxValues (tally_votes_counts votes)) =
      [(w, (votes.map Prod.snd).count w)] := by
    rw [hmax]
    apply filter_eq_singleton_of_unique _ _ _
      (keys_nodup_countValues (votes.map Prod.snd)) (entry_mem_tally votes w hw)
    intro p hp hpw
    obtain ⟨hpt, hpc⟩ := entry_countValues hp
    rw [hpc]
    exact Nat.ne_of_lt (huniq p.1 hpt hpw)
  have htop : topCandidates (tally_votes_counts votes) = [w] := by
    rw [topCandidates, hfilter]
    rfl
  simp [run_voting_decision, htop]

/-- C2: on a completed primary ballot set, the tally counts votes per target;
with a unique maximum the voting round's decision is exactly that player,
independent of the order in which the ballots were recorded (any permutation
of the ballot set decides identically); with two or more tied leaders the
decision hands the tie-break debate sub-protocol exactly the tied set. -/
theorem run_voting_round_tally (votes votes' : List (String × String))
    (hperm : votes.Perm votes') :
    (∀ w, w ∈ votes.map Prod.snd →
      (∀ t ∈ votes.map Prod.snd, t ≠ w →
        (votes.map Prod.snd).count t < (votes.map Prod.snd).count w) →
      run_voting_decision votes = Sum.inl w ∧
      run_voting_decision votes' = Sum.inl w) ∧
    (∀ w₁ w₂, w₁ ∈ votes.map Prod.snd → w₂ ∈ votes.map Prod.snd → w₁ ≠ w₂ →
      (votes.map Prod.snd).count w₁ = maxValues (tally_votes_counts votes) →
      (votes.map Prod.snd).count w₂ = maxValues (tally_votes_counts votes) →
      ∃ l, run_voting_decision votes = Sum.inr l ∧ 2 ≤ l.length ∧
        ∀ t, t ∈ l ↔ (t ∈ votes.map Prod.snd ∧
          (votes.map Prod.snd).count t = maxValues (tally_votes_counts votes))) := by
  have hpermts : (votes.map Prod.snd).Perm (votes'.map Prod.snd) := hperm.map Prod.snd
  constructor
  · intro w hw huniq
    refine ⟨run_voting_decision_unique votes w hw huniq, ?_⟩
    apply run_voting_decision_unique votes' w (hpermts.mem_iff.mp hw)
    intro t ht htw
    rw [← hpermts.count_eq, ← hpermts.count_eq]
    exact huniq t (hpermts.mem_iff.mpr ht) htw
  · intro w₁ w₂ h1 h2 hne hc1 hc2
    refine ⟨topCandidates (tally_votes_counts votes), ?_, ?_, ?_⟩
    · have hm1 : w₁ ∈ topCandidates (tally_votes_counts votes) :=
        (mem_topCandidates_tally votes w₁).mpr ⟨h1, hc1⟩
      have hm2 : w₂ ∈ topCandidates (tally_votes_counts votes) :=
        (mem_topCandidates_tally votes w₂).mpr ⟨h2, hc2⟩
      rcases hshape : topCandidates (tally_votes_counts votes) with _ | ⟨a, _ | ⟨b, r⟩⟩
      · rw [hshape] at hm1
        cases hm1
      · rw [hshape] at hm1 hm2
        rcases List.mem_singleton.mp hm1 with rfl
        rcases List.mem_singleton.mp hm2 with rfl
        exact absurd rfl hne
      · simp [run_voting_decision, hshape]
    · exact two_le_length_of_mem_ne
        ((mem_topCandidates_tally votes w₁).mpr ⟨h1, hc1⟩)
        ((mem_topCandidates_tally votes w₂).mpr ⟨h2, hc2⟩) hne
    · exact fun t => mem_topCandidates_tally votes t

/-- Witness for C2: ballots with a unique maximum, in two different orders. -/
theorem run_voting_round_tally_witness :
    (∀ w, w ∈ ([("A", "B"), ("C", "B"), ("B", "A")].map Prod.snd) →
      (∀ t ∈ ([("A", "B"), ("C", "B"), ("B", "A")].map Prod.snd), t ≠ w →
        (([("A", "B"), ("C", "B"), ("B", "A")].map Prod.snd)).count t <
        (([("A", "B"), ("C", "B"), ("B", "A")].map Prod.snd)).count w) →
      run_voting_decision [("A", "B"), ("C", "B"), ("B", "A")] = Sum.inl w ∧
      run_voting_decision [("B", "A"), ("C", "B"), ("A", "B")] = Sum.inl w) ∧
    (∀ w₁ w₂, w₁ ∈ ([("A", "B"), ("C", "B"), ("B", "A")].map Prod.snd) →
      w₂ ∈ ([("A", "B"), ("C", "B"), ("B", "A")].map Prod.snd) → w₁ ≠ w₂ →
      (([("A", "B"), ("C", "B"), ("B", "A")].map Prod.snd)).count w₁ =
        maxValues (tally_votes_counts [("A", "B"), ("C", "B"), ("B", "A")]) →
      (([("A", "B"), ("C", "B"), ("B", "A")].map Prod.snd)).count w₂ =
        maxValues (tally_votes_counts [("A", "B"), ("C", "B"), ("B", "A")]) →
      ∃ l, run_voting_decision [("A", "B"), ("C", "B"), ("B", "A")] = Sum.inr l ∧
        2 ≤ l.length ∧
        ∀ t, t ∈ l ↔ (t ∈ ([("A", "B"), ("C", "B"), ("B", "A")].map Prod.snd) ∧
          (([("A", "B"), ("C", "B"), ("B", "A")].map Prod.snd)).count t =
            maxValues (tally_votes_counts [("A", "B"), ("C", "B"), ("B", "A")]))) :=
  run_voting_round_tally [("A", "B"), ("C", "B"), ("B", "A")]
    [("B", "A"), ("C", "B"), ("A", "B")] (by decide)

/-! ### C3: the tie-break debate sub-protocol -/

theorem revoteCounts_keys_aux (tie : List String)
    (vad : String → Option String) (choose : List String → String)
    (voters : List String) (cnts : List (String × Nat))
    (hchoose : ∀ l : List String, l ≠ [] → choose l ∈ l) (htie : tie ≠ [])
    (hkeys : cnts.map Prod.fst = tie) :
    ((voters.foldl (revoteStep tie vad choose) cnts).map Prod.fst) = tie := by
  induction voters generalizing cnts with
  | nil => simpa
  | cons v voters ih =>
      rw [List.foldl_cons]
      apply ih
      have hch : choose tie ∈ cnts.map Prod.fst := by
        rw [hkeys]
        exact hchoose tie htie
      cases hv : vad v with
      | some t =>
          by_cases ht : t ∈ tie
          · simp only [revoteStep, hv]
            rw [if_pos ht, bumpCount,
              keys_dictInsert_mem _ _ _ (by rw [hkeys]; exact ht), hkeys]
          · simp only [revoteStep, hv]
            rw [if_neg ht, bumpCount, keys_dictInsert_mem _ _ _ hch, hkeys]
      | none =>
          simp only [revoteStep, hv]
          rw [bumpCount, keys_dictInsert_mem _ _ _ hch, hkeys]

theorem revoteCounts_keys (tie voters : List String)
    (vad : String → Option String) (choose : List String → String)
    (hchoose : ∀ l : List String, l ≠ [] → choose l ∈ l) (htie : tie ≠ []) :
    ((revoteCounts tie voters vad choose).map Prod.fst) = tie := by
  apply revoteCounts_keys_aux tie vad choose voters _ hchoose htie
  rw [List.map_map]
  have hcomp : (Prod.fst ∘ fun c : String => (c, 0)) = id := rfl
  rw [hcomp, List.map_id]

theorem foldl_revoteStep_congr (tie : List String)
    (vad vad' : String → Option String) (choose : List String → String)
    (voters : List String) (cnts : List (String × Nat))
    (h : ∀ v ∈ voters, vad v = vad' v) :
    voters.foldl (revoteStep tie vad choose) cnts =
      voters.foldl (revoteStep tie vad' choose) cnts := by
  induction voters generalizing cnts with
  | nil => rfl
  | cons v voters ih =>
      rw [List.foldl_cons, List.foldl_cons]
      have hstep : revoteStep tie vad choose cnts v = revoteStep tie vad' choose cnts v := by
        rw [revoteStep, revoteStep, h v (List.mem_cons_self ..)]
      rw [hstep]
      exact ih _ (fun u hu => h u (List.mem_cons_of_mem _ hu))

theorem revoteCounts_congr (tie voters : List String)
    (vad vad' : String → Option String) (choose : List String → String)
    (h : ∀ v ∈ voters, vad v = vad' v) :
    revoteCounts tie voters vad choose = revoteCounts tie voters vad' choose :=
  foldl_revoteStep_congr tie vad vad' choose voters _ h

theorem mem_debate_top_iff (tie voters : List String)
    (vad : String → Option String) (choose : List String → String)
    (hchoose : ∀ l : List String, l ≠ [] → choose l ∈ l) (htie : tie ≠ [])
    (hnodup : tie.Nodup) (t : String) :
    t ∈ ((revoteCounts tie voters vad choose).filter
        (fun p => p.2 = maxValues (revoteCounts tie voters vad choose))).map Prod.fst ↔
      t ∈ tie ∧
        (alookup t (revoteCounts tie voters vad choose)).getD 0 =
          maxValues (revoteCounts tie voters vad choose) := by
  have hkeys := revoteCounts_keys tie voters vad choose hchoose htie
  have hnodupk : ((revoteCounts tie voters vad choose).map Prod.fst).Nodup := by
    rw [hkeys]
    exact hnodup
  constructor
  · intro ht
    obtain ⟨⟨a, b⟩, hp, rfl⟩ := List.mem_map.mp ht
    have hpc : (a, b) ∈ revoteCounts tie voters vad choose := List.mem_of_mem_filter hp
    have hpv : b = maxValues (revoteCounts tie voters vad choose) := by
      simpa using List.of_mem_filter hp
    have hmemk : a ∈ tie := by
      rw [← hkeys]
      exact List.mem_map.mpr ⟨(a, b), hpc, rfl⟩
    have hlk : alookup a (revoteCounts tie voters vad choose) = some b :=
      alookup_eq_some_of_mem_nodup hnodupk hpc
    exact ⟨hmemk, by rw [hlk, Option.getD_some, hpv]⟩
  · rintro ⟨ht, hv⟩
    have hmemk : t ∈ (revoteCounts tie voters vad choose).map Prod.fst := by
      rw [hkeys]
      exact ht
    obtain ⟨n, hn⟩ := Option.isSome_iff_exists.mp
      ((isSome_alookup_iff_mem_keys _ t).mpr hmemk)
    have hnv : n = maxValues (revoteCounts tie voters vad choose) := by
      rw [hn, Option.getD_some] at hv
      exact hv
    refine List.mem_map.mpr ⟨(t, n),
      List.mem_filter.mpr ⟨mem_of_alookup_eq_some hn, by simp [hnv]⟩, rfl⟩

theorem debate_revote_unique_top (tie voters : List String)
    (vad : String → Option String) (choose : List String → String)
    (hchoose : ∀ l : List String, l ≠ [] → choose l ∈ l) (htie : tie ≠ [])
    (hnodup : tie.Nodup) (c : String) (hc : c ∈ tie)
    (huniq : ∀ t ∈ tie, t ≠ c →
      (alookup t (revoteCounts tie voters vad choose)).getD 0 <
        (alookup c (revoteCounts tie voters vad choose)).getD 0) :
    ((revoteCounts tie voters vad choose).filter
        (fun p => p.2 = maxValues (revoteCounts tie voters vad choose))).map Prod.fst
      = [c] := by
  have hkeys := revoteCounts_keys tie voters vad choose hchoose htie
  have hnodupk : ((revoteCounts tie voters vad choose).map Prod.fst).Nodup := by
    rw [hkeys]
    exact hnodup
  obtain ⟨n, hn⟩ := Option.isSome_iff_exists.mp
    ((isSome_alookup_iff_mem_keys _ c).mpr (by rw [hkeys]; exact hc))
  have hentry : ∀ p ∈ revoteCounts tie voters vad choose,
      p.1 ∈ tie ∧ (alookup p.1 (revoteCounts tie voters vad choose)).getD 0 = p.2 := by
    intro p hp
    refine ⟨by rw [← hkeys]; exact List.mem_map.mpr ⟨p, hp, rfl⟩, ?_⟩
    have := alookup_eq_some_of_mem_nodup hnodupk (show (p.1, p.2) ∈ _ from hp)
    rw [this, Option.getD_some]
  have hmaxle : maxValues (revoteCounts tie voters vad choose) ≤ n := by
    apply foldl_max_le _ _ _ (Nat.zero_le _)
    intro x hx
    obtain ⟨p, hp, rfl⟩ := List.mem_map.mp hx
    obtain ⟨hpt, hpl⟩ := hentry p hp
    by_cases hpc : p.1 = c
    · rw [hpc, hn, Option.getD_some] at hpl
      omega
    · have := huniq p.1 hpt hpc
      rw [hpl, hn, Option.getD_some] at this
      omega
  have hnle : n ≤ maxValues (revoteCounts tie voters vad choose) := by
    apply le_foldl_max
    exact List.mem_map.mpr ⟨(c, n), mem_of_alookup_eq_some hn, rfl⟩
  have hmax : maxValues (revoteCounts tie voters vad choose) = n :=
    le_antisymm hmaxle hnle
  have hfil : (revoteCounts tie voters vad choose).filter
      (fun p => p.2 = maxValues (revoteCounts tie voters vad choose)) =
        [(c, maxValues (revoteCounts tie voters vad choose))] := by
    apply filter_eq_singleton_of_unique _ _ _ hnodupk
    · rw [hmax]
      exact mem_of_alookup_eq_some hn
    · intro p hp hpc
      obtain ⟨hpt, hpl⟩ := hentry p hp
      have := huniq p.1 hpt hpc
      rw [hpl, hn, Option.getD_some] at this
      omega
  rw [hfil]
  rfl

/-- C3: for every tie set of size ≥ 2, the tie-break debate sub-protocol
(a total function — it never loops) returns exactly one member of the tie set:
the outcome depends on the re-vote ballots of alive non-candidates only, a
unique re-vote maximum eliminates that candidate, and a persisting tie
eliminates one candidate picked by `random.choice` from the still-tied
leaders; the result is never outside the tie set. -/
theorem debate_revote_spec (tie alive_order : List String)
    (vad : String → Option String) (choose : List String → String)
    (hchoose : ∀ l : List String, l ≠ [] → choose l ∈ l)
    (htie2 : 2 ≤ tie.length) (hnodup : tie.Nodup) :
    debate_revote tie alive_order vad choose ∈ tie ∧
    (∀ vad' : String → Option String,
      (∀ v ∈ alive_order.filter (fun n => n ∉ tie), vad v = vad' v) →
      debate_revote tie alive_order vad choose =
        debate_revote tie alive_order vad' choose) ∧
    (∀ c ∈ tie,
      (∀ t ∈ tie, t ≠ c →
        (alookup t (revoteCounts tie (alive_order.filter (fun n => n ∉ tie)) vad choose)).getD 0 <
          (alookup c (revoteCounts tie (alive_order.filter (fun n => n ∉ tie)) vad choose)).getD 0) →
      debate_revote tie alive_order vad choose = c) ∧
    (∀ c₁ c₂, c₁ ∈ tie → c₂ ∈ tie → c₁ ≠ c₂ →
      (alookup c₁ (revoteCounts tie (alive_order.filter (fun n => n ∉ tie)) vad choose)).getD 0 =
        maxValues (revoteCounts tie (alive_order.filter (fun n => n ∉ tie)) vad choose) →
      (alookup c₂ (revoteCounts tie (alive_order.filter (fun n => n ∉ tie)) vad choose)).getD 0 =
        maxValues (revoteCounts tie (alive_order.filter (fun n => n ∉ tie)) vad choose) →
      ∃ l, 2 ≤ l.length ∧
        (∀ t, t ∈ l ↔ t ∈ tie ∧
          (alookup t (revoteCounts tie (alive_order.filter (fun n => n ∉ tie)) vad choose)).getD 0 =
            maxValues (revoteCounts tie (alive_order.filter (fun n => n ∉ tie)) vad choose)) ∧
        debate_revote tie alive_order vad choose = choose l) := by
  have htie : tie ≠ [] := by
    intro h
    rw [h] at htie2
    simp at htie2
  have heq : debate_revote tie alive_order vad choose =
      (match ((revoteCounts tie (alive_order.filter (fun n => n ∉ tie)) vad choose).filter
          (fun p => p.2 = maxValues
            (revoteCounts tie (alive_order.filter (fun n => n ∉ tie)) vad choose))).map
            Prod.fst with
        | [] => choose tie
        | [t] => t
        | l => choose l) := rfl
  have hmemtop := mem_debate_top_iff tie (alive_order.filter (fun n => n ∉ tie))
    vad choose hchoose htie hnodup
  refine ⟨?_, ?_, ?_, ?_⟩
  · rcases hshape : ((revoteCounts tie (alive_order.filter (fun n => n ∉ tie)) vad choose).filter
        (fun p => p.2 = maxValues
          (revoteCounts tie (alive_order.filter (fun n => n ∉ tie)) vad choose))).map
          Prod.fst with _ | ⟨a, _ | ⟨b, r⟩⟩
    · rw [heq, hshape]
      exact hchoose tie htie
    · rw [heq, hshape]
      exact ((hmemtop a).mp (by rw [hshape]; exact List.mem_singleton_self a)).1
    · rw [heq, hshape]
      have hch : choose (a :: b :: r) ∈ a :: b :: r := hchoose _ (by simp)
      exact ((hmemtop (choose (a :: b :: r))).mp (by rw [hshape]; exact hch)).1
  · intro vad' hagree
    have hcnts := revoteCounts_congr tie (alive_order.filter (fun n => n ∉ tie))
      vad vad' choose hagree
    rw [debate_revote, debate_revote, hcnts]
  · intro c hc huniq
    have htop := debate_revote_unique_top tie (alive_order.filter (fun n => n ∉ tie))
      vad choose hchoose htie hnodup c hc huniq
    rw [heq, htop]
  · intro c₁ c₂ hc1 hc2 hne hm1 hm2
    refine ⟨((revoteCounts tie (alive_order.filter (fun n => n ∉ tie)) vad choose).filter
        (fun p => p.2 = maxValues
          (revoteCounts tie (alive_order.filter (fun n => n ∉ tie)) vad choose))).map
          Prod.fst, ?_, hmemtop, ?_⟩
    · exact two_le_length_of_mem_ne ((hmemtop c₁).mpr ⟨hc1, hm1⟩)
        ((hmemtop c₂).mpr ⟨hc2, hm2⟩) hne
    · rcases hshape : ((revoteCounts tie (alive_order.filter (fun n => n ∉ tie)) vad choose).filter
          (fun p => p.2 = maxValues
            (revoteCounts tie (alive_order.filter (fun n => n ∉ tie)) vad choose))).map
            Prod.fst with _ | ⟨a, _ | ⟨b, r⟩⟩
      · have := (hmemtop c₁).mpr ⟨hc1, hm1⟩
        rw [hshape] at this
        cases this
      · have h1 := (hmemtop c₁).mpr ⟨hc1, hm1⟩
        have h2 := (hmemtop c₂).mpr ⟨hc2, hm2⟩
        rw [hshape] at h1 h2
        rcases List.mem_singleton.mp h1 with rfl
        rcases List.mem_singleton.mp h2 with rfl
        exact absurd rfl hne
      · rw [heq, hshape]

theorem chooseHead_mem (l : List String) (h : l ≠ []) : chooseHead l ∈ l := by
  cases l with
  | nil => exact absurd rfl h
  | cons a t => exact List.mem_cons_self ..

/-- Witness for C3: tie set {A, B}, alive order [B, A, C, D], C re-votes "A",
D raises. -/
theorem debate_revote_spec_witness :
    debate_revote tieAB orderBACD vadW chooseHead ∈ tieAB ∧
    (∀ vad' : String → Option String,
      (∀ v ∈ orderBACD.filter (fun n => n ∉ tieAB), vadW v = vad' v) →
      debate_revote tieAB orderBACD vadW chooseHead =
        debate_revote tieAB orderBACD vad' chooseHead) ∧
    (∀ c ∈ tieAB,
      (∀ t ∈ tieAB, t ≠ c →
        (alookup t (revoteCounts tieAB (orderBACD.filter (fun n => n ∉ tieAB)) vadW chooseHead)).getD 0 <
          (alookup c (revoteCounts tieAB (orderBACD.filter (fun n => n ∉ tieAB)) vadW chooseHead)).getD 0) →
      debate_revote tieAB orderBACD vadW chooseHead = c) ∧
    (∀ c₁ c₂, c₁ ∈ tieAB → c₂ ∈ tieAB → c₁ ≠ c₂ →
      (alookup c₁ (revoteCounts tieAB (orderBACD.filter (fun n => n ∉ tieAB)) vadW chooseHead)).getD 0 =
        maxValues (revoteCounts tieAB (orderBACD.filter (fun n => n ∉ tieAB)) vadW chooseHead) →
      (alookup c₂ (revoteCounts tieAB (orderBACD.filter (fun n => n ∉ tieAB)) vadW chooseHead)).getD 0 =
        maxValues (revoteCounts tieAB (orderBACD.filter (fun n => n ∉ tieAB)) vadW chooseHead) →
      ∃ l, 2 ≤ l.length ∧
        (∀ t, t ∈ l ↔ t ∈ tieAB ∧
          (alookup t (revoteCounts tieAB (orderBACD.filter (fun n => n ∉ tieAB)) vadW chooseHead)).getD 0 =
            maxValues (revoteCounts tieAB (orderBACD.filter (fun n => n ∉ tieAB)) vadW chooseHead)) ∧
        debate_revote tieAB orderBACD vadW chooseHead = chooseHead l) :=
  debate_revote_spec tieAB orderBACD vadW chooseHead
    (fun l hl => chooseHead_mem l hl) (by decide) (by decide)

/-! ### C8: primary ballot collection is total and valid -/

theorem filter_ne_nonempty (l : List String) (v : String) (hn : l.Nodup)
    (h2 : 2 ≤ l.length) : l.filter (fun c => c ≠ v) ≠ [] := by
  intro hfil
  have hall : ∀ c ∈ l, c = v := by
    intro c hc
    have := List.filter_eq_nil_iff.mp hfil c hc
    simpa using this
  cases l with
  | nil => simp at h2
  | cons a tl =>
      cases tl with
      | nil => simp at h2
      | cons b tl2 =>
          have ha := hall a (List.mem_cons_self ..)
          have hb := hall b (List.mem_cons_of_mem _ (List.mem_cons_self ..))
          rw [List.nodup_cons] at hn
          refine hn.1 ?_
          rw [ha, ← hb]
          exact List.mem_cons_self ..

theorem collect_votes_aux (candidates : List String)
    (vote : String → Option String) (choose : List String → String)
    (hchoose : ∀ l : List String, l ≠ [] → choose l ∈ l)
    (hcand2 : 2 ≤ candidates.length) (hcnodup : candidates.Nodup)
    (order : List String) (acc : List (String × String))
    (hordnodup : order.Nodup)
    (hdisj : ∀ v ∈ order, v ∉ acc.map Prod.fst) :
    (order.foldl (collectVoteStep candidates vote choose) acc).map Prod.fst =
      acc.map Prod.fst ++ order ∧
    ∀ p ∈ order.foldl (collectVoteStep candidates vote choose) acc,
      p ∈ acc ∨ (p.2 ∈ candidates ∧ p.2 ≠ p.1) := by
  induction order generalizing acc with
  | nil =>
      refine ⟨by simp, ?_⟩
      intro p hp
      exact Or.inl hp
  | cons v rest ih =>
      rw [List.nodup_cons] at hordnodup
      have hvfresh : v ∉ acc.map Prod.fst := hdisj v (List.mem_cons_self ..)
      have hvalid : candidates.filter (fun c => c ≠ v) ≠ [] :=
        filter_ne_nonempty candidates v hcnodup hcand2
      have hstep : ∃ t, collectVoteStep candidates vote choose acc v = acc ++ [(v, t)] ∧
          t ∈ candidates ∧ t ≠ v := by
        cases hv : vote v with
        | some t =>
            by_cases hvt : t ∈ candidates ∧ t ≠ v
            · refine ⟨t, ?_, hvt.1, hvt.2⟩
              simp only [collectVoteStep, hv, if_pos hvt, record_vote]
              exact dictInsert_eq_append _ _ _ hvfresh
            · have hmem := hchoose _ hvalid
              rw [List.mem_filter] at hmem
              refine ⟨choose (candidates.filter (fun c => c ≠ v)), ?_, hmem.1,
                by simpa using hmem.2⟩
              simp only [collectVoteStep, hv, if_neg hvt, if_neg hvalid, record_vote]
              exact dictInsert_eq_append _ _ _ hvfresh
        | none =>
            have hmem := hchoose _ hvalid
            rw [List.mem_filter] at hmem
            refine ⟨choose (candidates.filter (fun c => c ≠ v)), ?_, hmem.1,
              by simpa using hmem.2⟩
            simp only [collectVoteStep, hv, if_neg hvalid, record_vote]
            exact dictInsert_eq_append _ _ _ hvfresh
      obtain ⟨t, hstepeq, htc, htv⟩ := hstep
      rw [List.foldl_cons, hstepeq]
      have hdisj' : ∀ u ∈ rest, u ∉ (acc ++ [(v, t)]).map Prod.fst := by
        intro u hu
        rw [List.map_append, List.mem_append]
        rintro (h | h)
        · exact hdisj u (List.mem_cons_of_mem _ hu) h
        · rcases List.mem_singleton.mp h with rfl
          exact hordnodup.1 hu
      obtain ⟨ih1, ih2⟩ := ih (acc ++ [(v, t)]) hordnodup.2 hdisj'
      constructor
      · rw [ih1, List.map_append]
        simp
      · intro p hp
        rcases ih2 p hp with h | h
        · rcases List.mem_append.mp h with h | h
          · exact Or.inl h
          · rcases List.mem_singleton.mp h with rfl
            exact Or.inr ⟨htc, htv⟩
        · exact Or.inr h

/-- C8: after primary vote collection, exactly one ballot is recorded per
voter of the alive speaking order (in that order), and every recorded ballot
targets an alive candidate different from the voter — an out-of-set target, a
self-vote or a raised call is replaced by `random.choice` over the valid
targets, never by an error or a missing ballot (the warning is only logged). -/
theorem collect_votes_complete (order candidates : List String)
    (vote : String → Option String) (choose : List String → String)
    (hchoose : ∀ l : List String, l ≠ [] → choose l ∈ l)
    (hordnodup : order.Nodup) (hcnodup : candidates.Nodup)
    (hcand2 : 2 ≤ candidates.length) :
    (collect_votes order candidates vote choose).map Prod.fst = order ∧
    ∀ p ∈ collect_votes order candidates vote choose,
      p.2 ∈ candidates ∧ p.2 ≠ p.1 := by
  obtain ⟨h1, h2⟩ := collect_votes_aux candidates vote choose hchoose hcand2 hcnodup
    order [] hordnodup (by simp)
  refine ⟨by simpa using h1, fun p hp => ?_⟩
  rcases h2 p hp with h | h
  · cases h
  · exact h

/-- Witness for C8: three voters; A casts a valid ballot, B votes for
themselves, C raises. -/
theorem collect_votes_complete_witness :
    (collect_votes ["A", "B", "C"] ["A", "B", "C"]
        (fun v => if v = "A" then some "B" else if v = "B" then some "B" else none)
        chooseHead).map Prod.fst = ["A", "B", "C"] ∧
    ∀ p ∈ collect_votes ["A", "B", "C"] ["A", "B", "C"]
        (fun v => if v = "A" then some "B" else if v = "B" then some "B" else none)
        chooseHead,
      p.2 ∈ ["A", "B", "C"] ∧ p.2 ≠ p.1 :=
  collect_votes_complete ["A", "B", "C"] ["A", "B", "C"]
    (fun v => if v = "A" then some "B" else if v = "B" then some "B" else none)
    chooseHead (fun l hl => chooseHead_mem l hl) (by decide) (by decide) (by decide)

/-! ### C6: session creation performs no range check on the minority count -/

/-- C6 (code bug): the specification requires `0 < spy_count < total_players`
to be rejected with an immediate error at creation, before role assignment;
the code performs no such validation. Concretely, `create_session` with three
players and `spy_count = 0` returns a session, and `initialize_game` then
assigns roles (everyone civilian) and reaches the Init phase without any
error. -/
theorem create_session_accepts_zero_spies :
    (create_session cfgsABC 0 id).spy_count = 0 ∧
    (create_session cfgsABC 0 id).total_players = 3 ∧
    (init_game (create_session cfgsABC 0 id) "苹果" "梨").2 = none ∧
    ((init_game (create_session cfgsABC 0 id) "苹果" "梨").1.players.map
        PlayerSession.role) =
      [some Role.civilian, some Role.civilian, some Role.civilian] ∧
    (init_game (create_session cfgsABC 0 id) "苹果" "梨").1.phase =
      GamePhase.init := by
  refine ⟨rfl, rfl, rfl, ?_, rfl⟩
  decide

/-! ### C7: memory compression bound, system-message preservation, no-ops -/

/-- Counterexample to C7 as stated: a context with no leading system message,
exactly `recent_messages_count + 1` messages and a token estimate over the 80%
threshold. The compression pass that runs is a size-based no-op, so afterwards
the message count is `recent_messages_count + 1` even though no system message
is present and no summary pair was injected — exceeding the claimed bound
`recent_messages_count + 0 + 0`. -/
theorem compress_bound_counterexample :
    10 * ctxOverflow.token_count > 8 * ctxOverflow.max_tokens ∧
    (∀ m ∈ ctxOverflow.messages, m.role ≠ "system") ∧
    ctxOverflow.memory_summary = "" ∧
    _compress_history ctxOverflow = ctxOverflow ∧
    _manage_memory ctxOverflow = ctxOverflow ∧
    (_compress_history ctxOverflow).memory_summary = "" ∧
    ctxOverflow.recent_messages_count + 0 + 0 <
      (_compress_history ctxOverflow).messages.length := by
  decide

theorem length_pyDropNeg_of_le (r : Nat) (l : List α) (h : r ≤ l.length) :
    (pyDropNeg r l).length = if r = 0 then l.length else r := by
  rw [pyDropNeg]
  split_ifs
  · rfl
  · rw [List.length_drop]
    omega

/-- C7 (amended): a compression pass on a context with more than
`recent_messages_count + 1` messages rebuilds it to exactly
(1 if the first message has role "system") + (2 if a summary pair was
injected, i.e. the resulting `memory_summary` is nonempty) + the size of the
retained recent window — `recent_messages_count` messages when
`recent_messages_count > 0`, but the *entire* original message list when
`recent_messages_count = 0`, because Python `messages[-0:]` is the whole list
(the leading system message is then duplicated). It keeps a leading system
message verbatim as the first message and recomputes the token estimate from
the rebuilt sequence; a pass on a context with at most
`recent_messages_count + 1` messages is a no-op (so the count can remain
`recent_messages_count + 1` with no system message present, as the
counterexample shows), and a pass guarded by the 80% threshold on a context
at or under the threshold is a no-op. -/
theorem compress_history_spec (c : ConversationContext)
    (h : c.recent_messages_count + 1 < c.messages.length) :
    (_compress_history c).messages.length =
      (match c.messages.head? with
        | some m => if m.role = "system" then 1 else 0
        | none => 0) +
      (if (_compress_history c).memory_summary ≠ "" then 2 else 0) +
      (if c.recent_messages_count = 0 then c.messages.length
       else c.recent_messages_count) ∧
    (∀ m, c.messages.head? = some m → m.role = "system" →
      (_compress_history c).messages.head? = some m) ∧
    (_compress_history c).token_count =
      ((_compress_history c).messages.map (fun m => estTokens m.content)).sum ∧
    (∀ d : ConversationContext, d.messages.length ≤ d.recent_messages_count + 1 →
      _compress_history d = d) ∧
    (∀ d : ConversationContext, 10 * d.token_count ≤ 8 * d.max_tokens →
      _manage_memory d = d) := by
  have hnle : ¬ c.messages.length ≤ c.recent_messages_count + 1 := by omega
  obtain ⟨m, rest, hms⟩ : ∃ m rest, c.messages = m :: rest := by
    cases hx : c.messages with
    | nil =>
        rw [hx] at h
        simp at h
    | cons a b => exact ⟨a, b, rfl⟩
  refine ⟨?_, ?_, ?_, ?_, ?_⟩
  · have hlen1 : (pyDropNeg c.recent_messages_count c.messages).length =
        if c.recent_messages_count = 0 then c.messages.length
        else c.recent_messages_count :=
      length_pyDropNeg_of_le _ _ (by omega)
    simp only [_compress_history, if_neg hnle, hms]
    rw [hms] at hlen1
    split_ifs <;>
      simp_all [List.length_append, List.length_cons] <;>
      omega
  · intro m' hm' hrole
    rw [hms] at hm'
    simp only [List.head?_cons, Option.some.injEq] at hm'
    subst hm'
    have hnle2 : ¬ (m :: rest).length ≤ c.recent_messages_count + 1 := by
      rw [← hms]
      exact hnle
    simp only [_compress_history, hms, if_neg hnle2, hrole]
    split_ifs <;> simp
  · simp only [_compress_history, if_neg hnle]
  · intro d hd
    rw [_compress_history, if_pos hd]
  · intro d hd
    rw [_manage_memory, if_neg (by omega)]

/-- Witness for the amended C7 at a concrete four-message context. -/
theorem compress_history_spec_witness :
    (_compress_history ctxFour).messages.length =
      (match ctxFour.messages.head? with
        | some m => if m.role = "system" then 1 else 0
        | none => 0) +
      (if (_compress_history ctxFour).memory_summary ≠ "" then 2 else 0) +
      (if ctxFour.recent_messages_count = 0 then ctxFour.messages.length
       else ctxFour.recent_messages_count) ∧
    (∀ m, ctxFour.messages.head? = some m → m.role = "system" →
      (_compress_history ctxFour).messages.head? = some m) ∧
    (_compress_history ctxFour).token_count =
      ((_compress_history ctxFour).messages.map (fun m => estTokens m.content)).sum ∧
    (∀ d : ConversationContext, d.messages.length ≤ d.recent_messages_count + 1 →
      _compress_history d = d) ∧
    (∀ d : ConversationContext, 10 * d.token_count ≤ 8 * d.max_tokens →
      _manage_memory d = d) :=
  compress_history_spec ctxFour (by decide)

/-! ### C5: describe failures, the fallback statement, and history rebuilds -/

theorem descStateAt_succ (order : List String) (header base : String)
    (behavior : String → String → Option String) (m : Nat) (hm : m < order.length) :
    descStateAt order header base behavior (m + 1) =
      descStep order header base behavior (descStateAt order header base behavior m)
        (order.get ⟨m, hm⟩) := by
  rw [descStateAt, descStateAt, List.take_succ, List.foldl_append,
    List.getElem?_eq_getElem hm]
  rfl

theorem descStateAt_trace_succ (order : List String) (header base : String)
    (behavior : String → String → Option String) (m : Nat) (hm : m < order.length) :
    (descStateAt order header base behavior (m + 1)).trace =
      (descStateAt order header base behavior m).trace ++
        [(order.get ⟨m, hm⟩, (descStateAt order header base behavior m).history)] := by
  rw [descStateAt_succ order header base behavior m hm, descStep]
  cases hb : behavior (order.get ⟨m, hm⟩)
      (descStateAt order header base behavior m).history <;> rfl

theorem descStateAt_descs_succ (order : List String) (header base : String)
    (behavior : String → String → Option String) (m : Nat) (hm : m < order.length) :
    (descStateAt order header base behavior (m + 1)).descs =
      dictInsert (order.get ⟨m, hm⟩)
        (match behavior (order.get ⟨m, hm⟩)
            (descStateAt order header base behavior m).history with
          | some d => d
          | none => fallback_description)
        (descStateAt order header base behavior m).descs := by
  rw [descStateAt_succ order header base behavior m hm, descStep]
  cases hb : behavior (order.get ⟨m, hm⟩)
      (descStateAt order header base behavior m).history <;> rfl

theorem descStateAt_playerDescs_succ (order : List String) (header base : String)
    (behavior : String → String → Option String) (m : Nat) (hm : m < order.length) :
    (descStateAt order header base behavior (m + 1)).playerDescs =
      dictInsert (order.get ⟨m, hm⟩)
        (((alookup (order.get ⟨m, hm⟩)
            (descStateAt order header base behavior m).playerDescs).getD []) ++
          [match behavior (order.get ⟨m, hm⟩)
              (descStateAt order header base behavior m).history with
            | some d => d
            | none => fallback_description])
        (descStateAt order header base behavior m).playerDescs := by
  rw [descStateAt_succ order header base behavior m hm, descStep]
  cases hb : behavior (order.get ⟨m, hm⟩)
      (descStateAt order header base behavior m).history <;> rfl

theorem descStateAt_history_none (order : List String) (header base : String)
    (behavior : String → String → Option String) (m : Nat) (hm : m < order.length)
    (hb : behavior (order.get ⟨m, hm⟩)
      (descStateAt order header base behavior m).history = none) :
    (descStateAt order header base behavior (m + 1)).history =
      (descStateAt order header base behavior m).history := by
  rw [descStateAt_succ order header base behavior m hm, descStep, hb]
  rfl

theorem descStateAt_history_some (order : List String) (header base : String)
    (behavior : String → String → Option String) (m : Nat) (hm : m < order.length)
    (d : String)
    (hb : behavior (order.get ⟨m, hm⟩)
      (descStateAt order header base behavior m).history = some d) :
    (descStateAt order header base behavior (m + 1)).history =
      (if format_current_round_descriptions order
          (dictInsert (order.get ⟨m, hm⟩) d
            (descStateAt order header base behavior m).descs) ≠ "" then
        base ++ header ++ format_current_round_descriptions order
          (dictInsert (order.get ⟨m, hm⟩) d
            (descStateAt order header base behavior m).descs)
      else base) := by
  rw [descStateAt_succ order header base behavior m hm, descStep, hb]
  rfl

theorem descStateAt_trace_map (order : List String) (header base : String)
    (behavior : String → String → Option String) :
    ∀ m, m ≤ order.length →
      (descStateAt order header base behavior m).trace.map Prod.fst = order.take m ∧
      (descStateAt order header base behavior m).trace.length = m := by
  intro m
  induction m with
  | zero =>
      intro
      refine ⟨?_, ?_⟩ <;> rfl
  | succ m ih =>
      intro hm1
      have hm : m < order.length := by omega
      obtain ⟨ih1, ih2⟩ := ih (by omega)
      rw [descStateAt_trace_succ order header base behavior m hm]
      constructor
      · rw [List.map_append, ih1, List.take_succ, List.getElem?_eq_getElem hm]
        rfl
      · rw [List.length_append, ih2]
        rfl

theorem descStateAt_trace_get (order : List String) (header base : String)
    (behavior : String → String → Option String) (i : Nat)
    (hi : i < order.length) :
    ∀ m, i < m → m ≤ order.length →
      (descStateAt order header base behavior m).trace.get? i =
        some (order.get ⟨i, hi⟩,
          (descStateAt order header base behavior i).history) := by
  intro m
  induction m with
  | zero => omega
  | succ m ih =>
      intro him hm1
      have hm' : m < order.length := by omega
      have hlen : (descStateAt order header base behavior m).trace.length = m :=
        (descStateAt_trace_map order header base behavior m (by omega)).2
      rw [descStateAt_trace_succ order header base behavior m hm']
      by_cases hcase : i < m
      · rw [List.get?_append (by omega)]
        exact ih hcase (by omega)
      · have hieq : i = m := by omega
        subst hieq
        rw [List.get?_append_right (by omega)]
        rw [hlen]
        simp

theorem descStateAt_descs_lookup (order : List String) (header base : String)
    (behavior : String → String → Option String) (hnd : order.Nodup)
    (i : Nat) (hi : i < order.length)
    (hfail : behavior (order.get ⟨i, hi⟩)
      ((descStateAt order header base behavior i).history) = none) :
    ∀ m, i < m → m ≤ order.length →
      alookup (order.get ⟨i, hi⟩)
        (descStateAt order header base behavior m).descs =
          some fallback_description := by
  intro m
  induction m with
  | zero => omega
  | succ m ih =>
      intro him hm1
      have hm' : m < order.length := by omega
      rw [descStateAt_descs_succ order header base behavior m hm']
      by_cases hcase : i < m
      · have hne : order.get ⟨i, hi⟩ ≠ order.get ⟨m, hm'⟩ := by
          intro he
          have := (List.Nodup.get_inj_iff hnd).mp he
          have : i = m := congrArg Fin.val this
          omega
        rw [alookup_dictInsert_ne _ _ _ _ hne]
        exact ih hcase (by omega)
      · have hieq : i = m := by omega
        subst hieq
        rw [show (⟨i, hm'⟩ : Fin order.length) = ⟨i, hi⟩ from rfl, hfail]
        exact alookup_dictInsert_self ..

theorem descStateAt_playerDescs_mem (order : List String) (header base : String)
    (behavior : String → String → Option String) (hnd : order.Nodup)
    (i : Nat) (hi : i < order.length)
    (hfail : behavior (order.get ⟨i, hi⟩)
      ((descStateAt order header base behavior i).history) = none) :
    ∀ m, i < m → m ≤ order.length →
      fallback_description ∈
        (alookup (order.get ⟨i, hi⟩)
          (descStateAt order header base behavior m).playerDescs).getD [] := by
  intro m
  induction m with
  | zero => omega
  | succ m ih =>
      intro him hm1
      have hm' : m < order.length := by omega
      rw [descStateAt_playerDescs_succ order header base behavior m hm']
      by_cases hcase : i < m
      · have hne : order.get ⟨i, hi⟩ ≠ order.get ⟨m, hm'⟩ := by
          intro he
          have := (List.Nodup.get_inj_iff hnd).mp he
          have : i = m := congrArg Fin.val this
          omega
        rw [alookup_dictInsert_ne _ _ _ _ hne]
        exact ih hcase (by omega)
      · have hieq : i = m := by omega
        subst hieq
        rw [show (⟨i, hm'⟩ : Fin order.length) = ⟨i, hi⟩ from rfl, hfail,
          alookup_dictInsert_self]
        simp

theorem fallback_infix_format (order : List String) (descs : List (String × String))
    (name : String) (hmem : name ∈ order)
    (halk : alookup name descs = some fallback_description) :
    fallback_description.data <:+:
      (format_current_round_descriptions order descs).data := by
  have hline : formatDescLine name fallback_description ∈
      order.filterMap (fun n => (alookup n descs).map (fun d => formatDescLine n d)) :=
    List.mem_filterMap.mpr ⟨name, hmem, by rw [halk]; rfl⟩
  have h1 := infix_joinSep "\n" _ _ hline
  rw [format_current_round_descriptions]
  refine List.IsInfix.trans ?_ h1
  rw [formatDescLine, data_append]
  exact (List.suffix_append _ _).isInfix

theorem format_ne_empty_of_lookup (order : List String)
    (descs : List (String × String)) (name : String) (hmem : name ∈ order)
    (halk : alookup name descs = some fallback_description) :
    format_current_round_descriptions order descs ≠ "" := by
  intro hempty
  have h := fallback_infix_format order descs name hmem halk
  rw [hempty] at h
  have h2 : fallback_description.data <:+: ([] : List Char) := h
  have h3 : fallback_description.data = [] := List.eq_nil_of_infix_nil h2
  exact absurd h3 (by decide)

theorem descStateAt_history_infix_of_success (order : List String)
    (header base : String) (behavior : String → String → Option String)
    (hnd : order.Nodup) (i m : Nat) (hi : i < order.length) (hm : m < order.length)
    (him : i < m)
    (hfail : behavior (order.get ⟨i, hi⟩)
      ((descStateAt order header base behavior i).history) = none)
    (d : String)
    (hsucc : behavior (order.get ⟨m, hm⟩)
      ((descStateAt order header base behavior m).history) = some d) :
    fallback_description.data <:+:
      ((descStateAt order header base behavior (m + 1)).history).data := by
  have hlk0 : alookup (order.get ⟨i, hi⟩)
      (descStateAt order header base behavior m).descs = some fallback_description :=
    descStateAt_descs_lookup order header base behavior hnd i hi hfail m him (by omega)
  have hne : order.get ⟨i, hi⟩ ≠ order.get ⟨m, hm⟩ := by
    intro he
    have := (List.Nodup.get_inj_iff hnd).mp he
    have : i = m := congrArg Fin.val this
    omega
  have hlk : alookup (order.get ⟨i, hi⟩)
      (dictInsert (order.get ⟨m, hm⟩) d
        (descStateAt order header base behavior m).descs) = some fallback_description := by
    rw [alookup_dictInsert_ne _ _ _ _ hne]
    exact hlk0
  have hmem : order.get ⟨i, hi⟩ ∈ order := List.get_mem ..
  have hinfix := fallback_infix_format order
    (dictInsert (order.get ⟨m, hm⟩) d (descStateAt order header base behavior m).descs)
    _ hmem hlk
  have hne2 := format_ne_empty_of_lookup order
    (dictInsert (order.get ⟨m, hm⟩) d (descStateAt order header base behavior m).descs)
    _ hmem hlk
  rw [descStateAt_history_some order header base behavior m hm d hsucc, if_pos hne2,
    data_append]
  exact hinfix.trans (List.suffix_append _ _).isInfix

theorem descStateAt_history_infix (order : List String) (header base : String)
    (behavior : String → String → Option String) (hnd : order.Nodup)
    (i k : Nat) (hi : i < order.length) (hk : k < order.length) (hik : i < k)
    (hfail : behavior (order.get ⟨i, hi⟩)
      ((descStateAt order header base behavior i).history) = none)
    (d : String)
    (hsucc : behavior (order.get ⟨k, hk⟩)
      ((descStateAt order header base behavior k).history) = some d) :
    ∀ m, k < m → m ≤ order.length →
      fallback_description.data <:+:
        ((descStateAt order header base behavior m).history).data := by
  intro m
  induction m with
  | zero => omega
  | succ m ih =>
      intro hkm hm1
      have hm' : m < order.length := by omega
      by_cases hcase : k < m
      · cases hb : behavior (order.get ⟨m, hm'⟩)
            ((descStateAt order header base behavior m).history) with
        | none =>
            rw [descStateAt_history_none order header base behavior m hm' hb]
            exact ih hcase (by omega)
        | some d' =>
            exact descStateAt_history_infix_of_success order header base behavior hnd
              i m hi hm' (by omega) hfail d' hb
      · have hkeq : k = m := by omega
        subst hkeq
        exact descStateAt_history_infix_of_success order header base behavior hnd
          i k hi hm' hik hfail d hsucc

theorem run_eq_descStateAt (order : List String) (header base : String)
    (behavior : String → String → Option String) :
    run_description_round order header base behavior =
      descStateAt order header base behavior order.length := by
  rw [run_description_round, descStateAt, List.take_length]

/-- Counterexample to C5 as stated: speaker A raises, so the fallback is
recorded for A, but the very next speaker B receives the unchanged history
text (the rebuild at the end of the loop body is skipped by the `except`
branch), and that text does not contain the fallback statement. -/
theorem description_fallback_counterexample :
    behaviorAB "A" baseHist = none ∧
    (run_description_round ["A", "B"] headerR1 baseHist behaviorAB).trace =
      [("A", baseHist), ("B", baseHist)] ∧
    alookup "A" (run_description_round ["A", "B"] headerR1 baseHist behaviorAB).descs =
      some fallback_description ∧
    ¬ (fallback_description.data <:+: baseHist.data) := by
  decide

/-- C5 (amended): every speaker of the alive order is processed (one trace
entry per speaker, in order — a raising agent never aborts the round); for a
speaker whose describe call raises, the fixed fallback statement is recorded
in the round's descriptions and in the player's own history; and a later
speaker's history text contains the fallback as soon as some speaker strictly
between the failure and them completed a successful describe (the history
text is rebuilt only after successes, so the speaker immediately following
the failure — or following an unbroken run of failures — does not receive
the fallback, as the counterexample shows). -/
theorem run_description_round_spec (order : List String) (header base : String)
    (behavior : String → String → Option String) (hnd : order.Nodup) :
    (run_description_round order header base behavior).trace.map Prod.fst = order ∧
    (∀ i p h,
      (run_description_round order header base behavior).trace.get? i = some (p, h) →
      behavior p h = none →
      alookup p (run_description_round order header base behavior).descs =
        some fallback_description ∧
      fallback_description ∈
        (alookup p (run_description_round order header base behavior).playerDescs).getD []) ∧
    (∀ i k j pi hsi pk hsk pj hsj,
      (run_description_round order header base behavior).trace.get? i = some (pi, hsi) →
      (run_description_round order header base behavior).trace.get? k = some (pk, hsk) →
      (run_description_round order header base behavior).trace.get? j = some (pj, hsj) →
      i < k → k < j →
      behavior pi hsi = none → (behavior pk hsk).isSome →
      fallback_description.data <:+: hsj.data) := by
  rw [run_eq_descStateAt]
  have hlen := (descStateAt_trace_map order header base behavior order.length le_rfl).2
  refine ⟨?_, ?_, ?_⟩
  · rw [(descStateAt_trace_map order header base behavior order.length le_rfl).1,
      List.take_length]
  · intro i p h hget hbf
    have hi : i < order.length := by
      by_contra hni
      rw [List.get?_eq_none.mpr (by omega)] at hget
      cases hget
    rw [descStateAt_trace_get order header base behavior i hi order.length hi le_rfl]
      at hget
    injection hget with hpair
    have hp : order.get ⟨i, hi⟩ = p := congrArg Prod.fst hpair
    have hh : (descStateAt order header base behavior i).history = h :=
      congrArg Prod.snd hpair
    subst hp
    subst hh
    exact ⟨descStateAt_descs_lookup order header base behavior hnd i hi hbf
        order.length hi le_rfl,
      descStateAt_playerDescs_mem order header base behavior hnd i hi hbf
        order.length hi le_rfl⟩
  · intro i k j pi hsi pk hsk pj hsj hgi hgk hgj hik hkj hbfail hbsucc
    have hj : j < order.length := by
      by_contra hni
      rw [List.get?_eq_none.mpr (by omega)] at hgj
      cases hgj
    have hk : k < order.length := by omega
    have hi : i < order.length := by omega
    rw [descStateAt_trace_get order header base behavior i hi order.length hi le_rfl]
      at hgi
    rw [descStateAt_trace_get order header base behavior k hk order.length hk le_rfl]
      at hgk
    rw [descStateAt_trace_get order header base behavior j hj order.length hj le_rfl]
      at hgj
    injection hgi with hpi
    injection hgk with hpk
    injection hgj with hpj
    have hpi1 : order.get ⟨i, hi⟩ = pi := congrArg Prod.fst hpi
    have hpi2 : (descStateAt order header base behavior i).history = hsi :=
      congrArg Prod.snd hpi
    have hpk1 : order.get ⟨k, hk⟩ = pk := congrArg Prod.fst hpk
    have hpk2 : (descStateAt order header base behavior k).history = hsk :=
      congrArg Prod.snd hpk
    have hpj2 : (descStateAt order header base behavior j).history = hsj :=
      congrArg Prod.snd hpj
    subst hpi1
    subst hpi2
    subst hpk1
    subst hpk2
    subst hpj2
    obtain ⟨d, hd⟩ := Option.isSome_iff_exists.mp hbsucc
    exact descStateAt_history_infix order header base behavior hnd i k hi hk hik
      hbfail d hd j hkj (by omega)

/-- Witness for the amended C5: three speakers, A raises, B and C succeed. -/
theorem run_description_round_spec_witness :
    (run_description_round ["A", "B", "C"] headerR1 baseHist behaviorAB).trace.map
        Prod.fst = ["A", "B", "C"] ∧
    (∀ i p h,
      (run_description_round ["A", "B", "C"] headerR1 baseHist behaviorAB).trace.get? i =
        some (p, h) →
      behaviorAB p h = none →
      alookup p (run_description_round ["A", "B", "C"] headerR1 baseHist behaviorAB).descs =
        some fallback_description ∧
      fallback_description ∈
        (alookup p
          (run_description_round ["A", "B", "C"] headerR1 baseHist behaviorAB).playerDescs).getD []) ∧
    (∀ i k j pi hsi pk hsk pj hsj,
      (run_description_round ["A", "B", "C"] headerR1 baseHist behaviorAB).trace.get? i =
        some (pi, hsi) →
      (run_description_round ["A", "B", "C"] headerR1 baseHist behaviorAB).trace.get? k =
        some (pk, hsk) →
      (run_description_round ["A", "B", "C"] headerR1 baseHist behaviorAB).trace.get? j =
        some (pj, hsj) →
      i < k → k < j →
      behaviorAB pi hsi = none → (behaviorAB pk hsk).isSome →
      fallback_description.data <:+: hsj.data) :=
  run_description_round_spec ["A", "B", "C"] headerR1 baseHist behaviorAB (by decide)
